import Mathlib

/-!
# SingleLinkedList: a verification development

Shallow embedding of `single-linked-list/single-linked-list.h`.

The C++ class keeps a sentinel node `head_` inside the list object and a chain
of `new`-allocated nodes on the free store.  The embedding keeps both apart:

* the free store is a `Heap`, a table of cells indexed by address,
* the list object is the pair `head_.next_node`, `size_`,
* a `Node*` is a `NodePtr`: `nullptr`, the address of the sentinel `&head_`,
  or the address of a free-store node.

Every read through a pointer that C++ leaves undefined (null, freed or never
allocated node) and every failed `assert` is the result `none`.

`size_` is a `size_t`.  It is only decremented behind a `size_ != 0` guard, and
it is incremented once per `new Node`; it counts live nodes, each at an address
of its own, so it stays below the range of `size_t` and is a natural number
here.

Loops that follow `next_node` get a turn counter.  A walk over distinct live
nodes never takes more turns than addresses were handed out, so the length of
the free store is always enough; a walk that needs more goes round a cycle.
-/

namespace SingleLinkedList

/-- The `struct Node`: a value and the raw pointer `next_node`, the address of
a free-store node as a natural number, or `none` for `nullptr`. -/
structure Node (α : Type) where
  value : α
  next_node : Option Nat
deriving DecidableEq

/-- The free store.  Cell `a` is `some n` while the node at address `a` is
live, and `none` once it has been deleted.  Addresses past the end have never
been handed out. -/
abbrev Heap (α : Type) := List (Option (Node α))

/-- Read of the node stored at an address; `none` when no live node is there. -/
def Heap.read {α : Type} (h : Heap α) (a : Nat) : Option (Node α) :=
  match h[a]? with
  | some (some n) => some n
  | _ => none

/-- The expression `new Node(val, next)`: the new node gets an address that no
node has had before. -/
def Heap.new {α : Type} (h : Heap α) (val : α) (next : Option Nat) : Nat × Heap α :=
  (h.length, h ++ [some ⟨val, next⟩])

/-- The statement `delete p` for a non-null `p`. -/
def Heap.delete {α : Type} (h : Heap α) (a : Nat) : Heap α :=
  h.set a none

/-- Overwrite of the cell at `a` with a node. -/
def Heap.store {α : Type} (h : Heap α) (a : Nat) (n : Node α) : Heap α :=
  h.set a (some n)

/-- Store into the field `next_node` of the live node at `a`. -/
def Heap.setNext {α : Type} (h : Heap α) (a : Nat) (next : Option Nat) : Option (Heap α) :=
  match h.read a with
  | some n => some (h.store a ⟨n.value, next⟩)
  | none => none

/-- A value of type `Node*` as the list code uses it. -/
inductive NodePtr where
  | null
  | head
  | node (a : Nat)
deriving DecidableEq

/-- A `next_node` field seen as a `Node*`. -/
def NodePtr.ofLink : Option Nat → NodePtr
  | none => NodePtr.null
  | some a => NodePtr.node a

end SingleLinkedList

/-- The data members of the class: `head_.next_node` and `size_`. -/
structure SingleLinkedList where
  head_next_node : Option Nat
  size_ : Nat
deriving DecidableEq

namespace SingleLinkedList

/-- A list object together with the free store its nodes live on. -/
structure State (α : Type) where
  list : SingleLinkedList
  heap : Heap α

/-- The default constructor `SingleLinkedList()` run over a free store. -/
def State.empty {α : Type} (h : Heap α) : State α :=
  ⟨⟨none, 0⟩, h⟩

/-- The read `p->next_node`. -/
def State.next_node {α : Type} (s : State α) : NodePtr → Option (Option Nat)
  | NodePtr.null => none
  | NodePtr.head => some s.list.head_next_node
  | NodePtr.node a => (s.heap.read a).map Node.next_node

/-- The store `p->next_node = next`. -/
def State.set_next_node {α : Type} (s : State α) (p : NodePtr) (next : Option Nat) :
    Option (State α) :=
  match p with
  | NodePtr.null => none
  | NodePtr.head => some ⟨⟨next, s.list.size_⟩, s.heap⟩
  | NodePtr.node a => (s.heap.setNext a next).map (fun h => ⟨s.list, h⟩)

/-- The member `GetSize`. -/
def GetSize {α : Type} (s : State α) : Nat := s.list.size_

/-- The member `IsEmpty`. -/
def IsEmpty {α : Type} (s : State α) : Bool := s.list.size_ == 0

/-- The member `begin`. -/
def begin {α : Type} (s : State α) : NodePtr := NodePtr.ofLink s.list.head_next_node

/-- The member `end` (the name `end` is reserved in Lean). -/
def end_ : NodePtr := NodePtr.null

/-- The member `before_begin`. -/
def before_begin : NodePtr := NodePtr.head

/-- The iterator's `operator++`: asserts a non-null node, then follows
`next_node`. -/
def Iterator.inc {α : Type} (s : State α) (it : NodePtr) : Option NodePtr :=
  (s.next_node it).map NodePtr.ofLink

/-- The iterator's `operator*`: asserts a non-null node, then reads `value`.
The sentinel's `value` is a default-constructed `Type` that no list operation
reads; the embedding gives it no value. -/
def Iterator.deref {α : Type} (s : State α) : NodePtr → Option α
  | NodePtr.node a => (s.heap.read a).map Node.value
  | _ => none

/-- The member `PushFront`. -/
def PushFront {α : Type} (s : State α) (value : α) : State α :=
  let r := s.heap.new value s.list.head_next_node
  ⟨⟨some r.1, s.list.size_ + 1⟩, r.2⟩

/-- The loop of `Clear`, by recursion on the value of `size_`. -/
def ClearLoop {α : Type} : Nat → Option Nat → Heap α → Option (State α)
  | 0, hd, h => some ⟨⟨hd, 0⟩, h⟩
  | n + 1, hd, h =>
    match hd with
    | none => none
    | some a =>
      match h.read a with
      | none => none
      | some nd => ClearLoop n nd.next_node (h.delete a)

/-- The member `Clear`. -/
def Clear {α : Type} (s : State α) : Option (State α) :=
  ClearLoop s.list.size_ s.list.head_next_node s.heap

/-- The member `InsertAfter`; the result is the new state and the returned
iterator. -/
def InsertAfter {α : Type} (s : State α) (pos : NodePtr) (value : α) :
    Option (State α × NodePtr) := do
  let tmp_ptr ← s.next_node pos
  let r := s.heap.new value tmp_ptr
  let s1 ← (State.mk s.list r.2).set_next_node pos (some r.1)
  let nw ← s1.next_node pos
  let s2 ← s1.set_next_node (NodePtr.ofLink nw) tmp_ptr
  let s3 : State α := ⟨⟨s2.list.head_next_node, s2.list.size_ + 1⟩, s2.heap⟩
  let ret ← s3.next_node pos
  pure (s3, NodePtr.ofLink ret)

/-- The member `PopFront`. -/
def PopFront {α : Type} (s : State α) : Option (State α) :=
  if !IsEmpty s then
    match s.list.head_next_node with
    | none => none
    | some a =>
      match s.heap.read a with
      | none => none
      | some nd => some ⟨⟨nd.next_node, s.list.size_ - 1⟩, s.heap.delete a⟩
  else some s

/-- The member `EraseAfter`; the result is the new state and the returned
iterator. -/
def EraseAfter {α : Type} (s : State α) (pos : NodePtr) : Option (State α × NodePtr) :=
  if IsEmpty s then some (s, end_)
  else if pos = NodePtr.null then some (s, end_)
  else do
    let nx ← s.next_node pos
    match nx with
    | none => pure (s, end_)
    | some b =>
      let nd ← s.heap.read b
      let tmp_ptr := nd.next_node
      let s1 ← (State.mk s.list (s.heap.delete b)).set_next_node pos tmp_ptr
      let s2 : State α := ⟨⟨s1.list.head_next_node, s1.list.size_ - 1⟩, s1.heap⟩
      let ret ← s2.next_node pos
      pure (s2, NodePtr.ofLink ret)

/-- The client loop `for (it = first; it != last; ++it)` that gathers `*it`.
The counter bounds the number of turns; `none` is an undefined read, a failed
assertion, or a loop that outlasts the counter. -/
def collect {α : Type} (s : State α) : Nat → NodePtr → NodePtr → Option (List α)
  | 0, first, last => if first = last then some [] else none
  | fuel + 1, first, last =>
    if first = last then some []
    else do
      let x ← Iterator.deref s first
      let nxt ← Iterator.inc s first
      let rest ← collect s fuel nxt last
      pure (x :: rest)

/-- The element sequence: the values met from `begin()` to `end()`.  A walk
over distinct live nodes takes at most as many turns as addresses were ever
handed out, so that many turns are allowed; the result is `none` exactly when
the C++ loop reads through a dead pointer or goes round a cycle for ever. -/
def elements {α : Type} (s : State α) : Option (List α) :=
  collect s s.heap.length (begin s) end_

/-- The call `std::distance(first, last)` on iterators: the number of `++`
that take `first` to `last`. -/
def distance {α : Type} (s : State α) : Nat → NodePtr → NodePtr → Option Nat
  | 0, first, last => if first = last then some 0 else none
  | fuel + 1, first, last =>
    if first = last then some 0
    else do
      let nxt ← Iterator.inc s first
      let n ← distance s fuel nxt last
      pure (n + 1)

/-- The number of advances from `begin()` to `end()`. -/
def countNodes {α : Type} (s : State α) : Option Nat :=
  distance s s.heap.length (begin s) end_

/-- The call `std::next(it, k)`: `k` times `++`. -/
def advance {α : Type} (s : State α) : Nat → NodePtr → Option NodePtr
  | 0, it => some it
  | k + 1, it => (Iterator.inc s it).bind (advance s k)

/-- The member `swap`, on the data members of the two objects. -/
def swap (this other : SingleLinkedList) : SingleLinkedList × SingleLinkedList :=
  (⟨other.head_next_node, other.size_⟩, ⟨this.head_next_node, this.size_⟩)

/-- The loop of `Assign` over the array of an initializer list: `tmp` is the
scratch list, `last_node` the pointer of the same name. -/
def AssignLoop {α : Type} : List α → State α → NodePtr → Option (State α)
  | [], tmp, _ => some tmp
  | v :: rest, tmp, last_node => do
    let r := tmp.heap.new v none
    let t1 ← (State.mk tmp.list r.2).set_next_node last_node (some r.1)
    AssignLoop rest ⟨⟨t1.list.head_next_node, t1.list.size_ + 1⟩, t1.heap⟩ (NodePtr.node r.1)

/-- The member `Assign` called with the bounds of an initializer list; the
scratch list is destroyed on return, which runs `Clear` on it. -/
def Assign {α : Type} (this : State α) (values : List α) : Option (State α) :=
  if this.list.size_ = 0 ∧ this.list.head_next_node = none then do
    let tmp ← AssignLoop values (State.empty this.heap) NodePtr.head
    let sw := swap this.list tmp.list
    let dead ← Clear ⟨sw.2, tmp.heap⟩
    pure ⟨sw.1, dead.heap⟩
  else none

/-- The constructor from `std::initializer_list<Type>`. -/
def ofInitializerList {α : Type} (h : Heap α) (values : List α) : Option (State α) :=
  Assign (State.empty h) values

/-- The algorithm `std::equal(first1, last1, first2)` of the C++ standard
library, over iterators of two lists; `eq` is `operator==` of `Type`. -/
def std_equal {α : Type} (eq : α → α → Bool) (s1 s2 : State α) :
    Nat → NodePtr → NodePtr → NodePtr → Option Bool
  | 0, first1, last1, _ => if first1 = last1 then some true else none
  | fuel + 1, first1, last1, first2 =>
    if first1 = last1 then some true
    else do
      let x ← Iterator.deref s1 first1
      let y ← Iterator.deref s2 first2
      if !(eq x y) then pure false
      else do
        let n1 ← Iterator.inc s1 first1
        let n2 ← Iterator.inc s2 first2
        std_equal eq s1 s2 fuel n1 last1 n2

/-- The algorithm `std::lexicographical_compare(first1, last1, first2, last2)`
of the C++ standard library; `lt` is `operator<` of `Type`. -/
def std_lexicographical_compare {α : Type} (lt : α → α → Bool) (s1 s2 : State α) :
    Nat → NodePtr → NodePtr → NodePtr → NodePtr → Option Bool
  | 0, first1, last1, first2, last2 =>
    if first1 ≠ last1 ∧ first2 ≠ last2 then none
    else some (decide (first1 = last1) && decide (first2 ≠ last2))
  | fuel + 1, first1, last1, first2, last2 =>
    if first1 ≠ last1 ∧ first2 ≠ last2 then do
      let x ← Iterator.deref s1 first1
      let y ← Iterator.deref s2 first2
      if lt x y then pure true
      else if lt y x then pure false
      else do
        let n1 ← Iterator.inc s1 first1
        let n2 ← Iterator.inc s2 first2
        std_lexicographical_compare lt s1 s2 fuel n1 last1 n2 last2
    else some (decide (first1 = last1) && decide (first2 ≠ last2))

/-- A reference to a list object: the address of the object and the object
found there. -/
structure Ref where
  addr : Nat
  obj : SingleLinkedList

/-- The free function `operator==`. -/
def operator_eq {α : Type} (eq : α → α → Bool) (h : Heap α) (lhs rhs : Ref) : Option Bool :=
  if lhs.addr = rhs.addr then some true
  else if GetSize (State.mk lhs.obj h) ≠ GetSize (State.mk rhs.obj h) then some false
  else
    std_equal eq ⟨lhs.obj, h⟩ ⟨rhs.obj, h⟩ h.length
      (begin (State.mk lhs.obj h)) end_ (begin (State.mk rhs.obj h))

/-- The free function `operator!=`. -/
def operator_ne {α : Type} (eq : α → α → Bool) (h : Heap α) (lhs rhs : Ref) : Option Bool :=
  (operator_eq eq h lhs rhs).map (fun b => !b)

/-- The free function `operator<`. -/
def operator_lt {α : Type} (lt : α → α → Bool) (h : Heap α) (lhs rhs : Ref) : Option Bool :=
  std_lexicographical_compare lt ⟨lhs.obj, h⟩ ⟨rhs.obj, h⟩ h.length
    (begin (State.mk lhs.obj h)) end_ (begin (State.mk rhs.obj h)) end_

/-- The free function `swap`. -/
def free_swap (lhs rhs : SingleLinkedList) : SingleLinkedList × SingleLinkedList :=
  swap lhs rhs

/-- The loop of `Assign` over the iterators of another list: `start` and
`finish` are iterators of `other`, `tmp` is the scratch list and `last_node`
the pointer of the same name.  All nodes live on the free store of `tmp`. -/
def AssignListLoop {α : Type} (other : SingleLinkedList) :
    Nat → NodePtr → NodePtr → State α → NodePtr → Option (State α)
  | 0, start, finish, tmp, _ => if start = finish then some tmp else none
  | fuel + 1, start, finish, tmp, last_node =>
    if start = finish then some tmp
    else do
      let x ← Iterator.deref (State.mk other tmp.heap) start
      let r := tmp.heap.new x none
      let t1 ← (State.mk tmp.list r.2).set_next_node last_node (some r.1)
      let t2 : State α := ⟨⟨t1.list.head_next_node, t1.list.size_ + 1⟩, t1.heap⟩
      let nxt ← Iterator.inc (State.mk other t2.heap) start
      AssignListLoop other fuel nxt finish t2 (NodePtr.node r.1)

/-- The member `Assign` called with iterators of another list; the scratch
list is destroyed on return, which runs `Clear` on it. -/
def AssignList {α : Type} (this : State α) (other : SingleLinkedList)
    (start finish : NodePtr) : Option (State α) :=
  if this.list.size_ = 0 ∧ this.list.head_next_node = none then do
    let tmp ← AssignListLoop other this.heap.length start finish
      (State.empty this.heap) NodePtr.head
    let sw := swap this.list tmp.list
    let dead ← Clear ⟨sw.2, tmp.heap⟩
    pure ⟨sw.1, dead.heap⟩
  else none

/-- The copy constructor `SingleLinkedList(const SingleLinkedList&)`: the
result is the new list object and the free store after the copy. -/
def copy_construct {α : Type} (h : Heap α) (other : SingleLinkedList) : Option (State α) :=
  AssignList (State.empty h) other (begin (State.mk other h)) end_

/-- The member `operator=`: copy of `rhs`, `swap` with the copy, then the
destructor of the copy, which holds the former nodes of `this`.  The result is
the list object `this` and the free store afterwards. -/
def operator_assign {α : Type} (this rhs : SingleLinkedList) (h : Heap α) :
    Option (State α) := do
  let rhs_copy ← copy_construct h rhs
  let sw := swap this rhs_copy.list
  let dead ← Clear ⟨sw.2, rhs_copy.heap⟩
  pure ⟨sw.1, dead.heap⟩

/-- The free function `operator>`. -/
def operator_gt {α : Type} (lt : α → α → Bool) (h : Heap α) (lhs rhs : Ref) : Option Bool :=
  operator_lt lt h rhs lhs

/-- The free function `operator<=`. -/
def operator_le {α : Type} (lt : α → α → Bool) (h : Heap α) (lhs rhs : Ref) : Option Bool :=
  (operator_gt lt h lhs rhs).map (fun b => !b)

/-- The free function `operator>=`. -/
def operator_ge {α : Type} (lt : α → α → Bool) (h : Heap α) (lhs rhs : Ref) : Option Bool :=
  (operator_lt lt h lhs rhs).map (fun b => !b)

/-- The body of the loop of `Clear`. -/
def ClearBody {α : Type} (s : State α) : Option (State α) :=
  match s.list.head_next_node with
  | none => none
  | some a =>
    match s.heap.read a with
    | none => none
    | some nd => some ⟨⟨nd.next_node, s.list.size_ - 1⟩, s.heap.delete a⟩

/-- The state after `k` full turns of the loop of `Clear`: each turn passes
the test `!IsEmpty()` and runs the body.  The result is `none` when the loop
stops before `k` turns or a turn reads through a null or dead pointer. -/
def ClearTurns {α : Type} : Nat → State α → Option (State α)
  | 0, s => some s
  | k + 1, s => if IsEmpty s then none else (ClearBody s).bind (ClearTurns k)

/-- The algorithm `std::equal` as in `std_equal`, with a log of the positions
at which it applies `*` and `++` to its third iterator, in that order. -/
def std_equal_log {α : Type} (eq : α → α → Bool) (s1 s2 : State α) :
    Nat → NodePtr → NodePtr → NodePtr → Option (Bool × List NodePtr)
  | 0, first1, last1, _ => if first1 = last1 then some (true, []) else none
  | fuel + 1, first1, last1, first2 =>
    if first1 = last1 then some (true, [])
    else do
      let x ← Iterator.deref s1 first1
      let y ← Iterator.deref s2 first2
      if !(eq x y) then pure (false, [first2])
      else do
        let n1 ← Iterator.inc s1 first1
        let n2 ← Iterator.inc s2 first2
        let r ← std_equal_log eq s1 s2 fuel n1 last1 n2
        pure (r.1, first2 :: first2 :: r.2)

/-- The free function `operator==` as in `operator_eq`, with the log of the
accesses that `std::equal` makes through its iterator into `rhs`; the log is
empty when `std::equal` is not called. -/
def operator_eq_log {α : Type} (eq : α → α → Bool) (h : Heap α) (lhs rhs : Ref) :
    Option (Bool × List NodePtr) :=
  if lhs.addr = rhs.addr then some (true, [])
  else if GetSize (State.mk lhs.obj h) ≠ GetSize (State.mk rhs.obj h) then some (false, [])
  else
    std_equal_log eq ⟨lhs.obj, h⟩ ⟨rhs.obj, h⟩ h.length
      (begin (State.mk lhs.obj h)) end_ (begin (State.mk rhs.obj h))

/-! ## Specification side -/

/-- The nodes `cs` (address and value) are exactly those met when following
`next_node` from the link `p` up to the link `q`. -/
def Seg {α : Type} (h : Heap α) : Option Nat → List (Nat × α) → Option Nat → Prop
  | p, [], q => p = q
  | p, c :: cs, q => p = some c.1 ∧ ∃ nx, h.read c.1 = some ⟨c.2, nx⟩ ∧ Seg h nx cs q

/-- A position without a successor, as `EraseAfter` tests it: the end position
`nullptr`, or a position whose `next_node` is `nullptr`. -/
def NoSuccessor {α : Type} (s : State α) (pos : NodePtr) : Prop :=
  pos = NodePtr.null ∨ s.next_node pos = some none

/-- The list states that the public operations produce: from the empty list or
a list built from a sequence, by `PushFront`, `PopFront`, `InsertAfter` and
`EraseAfter` at a position `k ≤ GetSize()` advances after `before_begin()`,
and `Clear`. -/
inductive Reachable {α : Type} : State α → Prop
  | empty (h : Heap α) : Reachable (State.empty h)
  | ofSequence (h : Heap α) (vs : List α) (s : State α) :
      ofInitializerList h vs = some s → Reachable s
  | pushFront (s : State α) (v : α) : Reachable s → Reachable (PushFront s v)
  | popFront (s s' : State α) : Reachable s → PopFront s = some s' → Reachable s'
  | insertAfter (s s' : State α) (k : Nat) (pos it : NodePtr) (v : α) :
      Reachable s → k ≤ GetSize s → advance s k before_begin = some pos →
      InsertAfter s pos v = some (s', it) → Reachable s'
  | eraseAfter (s s' : State α) (k : Nat) (pos it : NodePtr) :
      Reachable s → k ≤ GetSize s → advance s k before_begin = some pos →
      EraseAfter s pos = some (s', it) → Reachable s'
  | clear (s s' : State α) : Reachable s → Clear s = some s' → Reachable s'

/-- The chain from `head_.next_node` ends in `nullptr` and has `size_` nodes. -/
def Inv {α : Type} (s : State α) : Prop :=
  ∃ cs, Seg s.heap s.list.head_next_node cs none ∧ s.list.size_ = cs.length

/-- Specification of list equality in the words of the spec: the same length,
and equal elements pair by pair in iteration order. -/
def SameSequence {α : Type} (eq : α → α → Bool) (la lb : List α) : Prop :=
  la.length = lb.length ∧ ∀ p ∈ la.zip lb, eq p.1 p.2 = true

/-- Specification of list ordering in the words of the spec: at the first index
where one element is less than the other, whether the left one is the lesser;
without such an index within the shorter length, whether the left list is the
shorter. -/
def lexicographicLess {α : Type} (lt : α → α → Bool) (la lb : List α) : Bool :=
  match (la.zip lb).find? (fun p => lt p.1 p.2 || lt p.2 p.1) with
  | some p => lt p.1 p.2
  | none => decide (la.length < lb.length)

/-- A sample list `[2, 3]`, as the constructor builds it on an empty free
store: two live nodes at the addresses 0 and 1. -/
def sample23 : State Nat :=
  ⟨⟨some 0, 2⟩, [some ⟨2, some 1⟩, some ⟨3, none⟩]⟩

/-- A sample free store with the chains of four lists: `[1, 2, 3]` from
address 0, `[1, 2, 3]` from address 3, `[1, 2, 2]` from address 6 and `[1, 2]`
from address 9. -/
def sampleHeap : Heap Nat :=
  [some ⟨1, some 1⟩, some ⟨2, some 2⟩, some ⟨3, none⟩,
   some ⟨1, some 4⟩, some ⟨2, some 5⟩, some ⟨3, none⟩,
   some ⟨1, some 7⟩, some ⟨2, some 8⟩, some ⟨2, none⟩,
   some ⟨1, some 10⟩, some ⟨2, none⟩]

/-- The list object of the first `[1, 2, 3]` on `sampleHeap`. -/
def sampleA : Ref := ⟨0, ⟨some 0, 3⟩⟩

/-- The list object of the second `[1, 2, 3]` on `sampleHeap`. -/
def sampleB : Ref := ⟨1, ⟨some 3, 3⟩⟩

/-- The list object of `[1, 2, 2]` on `sampleHeap`. -/
def sampleC : Ref := ⟨2, ⟨some 6, 3⟩⟩

/-- The list object of `[1, 2]` on `sampleHeap`. -/
def sampleD : Ref := ⟨3, ⟨some 9, 2⟩⟩

/-- An empty list object. -/
def sampleE : Ref := ⟨4, ⟨none, 0⟩⟩

/-- Another empty list object. -/
def sampleF : Ref := ⟨5, ⟨none, 0⟩⟩

/-- Equality of `Nat` elements as a Boolean test. -/
def natEq (x y : Nat) : Bool := decide (x = y)

/-- Less-than of `Nat` elements as a Boolean test. -/
def natLt (x y : Nat) : Bool := decide (x < y)

/-- One mutation of a list by a public operation: `PushFront`, `PopFront`,
`InsertAfter` or `EraseAfter` at a position `k ≤ GetSize()` advances after
`before_begin()`, or `Clear`. -/
inductive Mutates {α : Type} : State α → State α → Prop
  | pushFront (s : State α) (v : α) : Mutates s (PushFront s v)
  | popFront (s s' : State α) : PopFront s = some s' → Mutates s s'
  | insertAfter (s s' : State α) (k : Nat) (pos it : NodePtr) (v : α) :
      k ≤ GetSize s → advance s k before_begin = some pos →
      InsertAfter s pos v = some (s', it) → Mutates s s'
  | eraseAfter (s s' : State α) (k : Nat) (pos it : NodePtr) :
      k ≤ GetSize s → advance s k before_begin = some pos →
      EraseAfter s pos = some (s', it) → Mutates s s'
  | clear (s s' : State α) : Clear s = some s' → Mutates s s'

/-- Two list objects on one free store. -/
structure Pair (α : Type) where
  a : SingleLinkedList
  b : SingleLinkedList
  heap : Heap α

/-- Any finite run of mutations, each applied to one of the two lists. -/
inductive Evolves {α : Type} : Pair α → Pair α → Prop
  | refl (t : Pair α) : Evolves t t
  | left (t t' : Pair α) (a' : SingleLinkedList) (h' : Heap α) :
      Evolves t t' → Mutates ⟨t'.a, t'.heap⟩ ⟨a', h'⟩ → Evolves t ⟨a', t'.b, h'⟩
  | right (t t' : Pair α) (b' : SingleLinkedList) (h' : Heap α) :
      Evolves t t' → Mutates ⟨t'.b, t'.heap⟩ ⟨b', h'⟩ → Evolves t ⟨t'.a, b', h'⟩

/-- The free store `h'` is `h` grown and changed only at nodes of the chain
`cs`. -/
def Frame {α : Type} (cs : List (Nat × α)) (h h' : Heap α) : Prop :=
  h.length ≤ h'.length ∧
    ∀ b, b < h.length → (∀ c ∈ cs, c.1 ≠ b) → h'.read b = h.read b

/-- Two lists with valid size fields whose chains share no node. -/
def Independent {α : Type} (a b : SingleLinkedList) (h : Heap α) : Prop :=
  ∃ cs ds, Seg h a.head_next_node cs none ∧ a.size_ = cs.length ∧
    Seg h b.head_next_node ds none ∧ b.size_ = ds.length ∧
    ∀ c ∈ cs, ∀ d ∈ ds, c.1 ≠ d.1

/-! ## Memory and chain lemmas -/

theorem Heap.read_eq_some_iff {α : Type} (h : Heap α) (a : Nat) (n : Node α) :
    h.read a = some n ↔ h[a]? = some (some n) := by
  unfold Heap.read
  split
  · next m hm => rw [hm]; simp
  · next hne =>
    constructor
    · intro hc; cases hc
    · intro hc; exact absurd hc (hne n)

theorem Heap.read_lt_length {α : Type} {h : Heap α} {a : Nat} {n : Node α} (hr : h.read a = some n) :
    a < h.length := by
  rw [Heap.read_eq_some_iff] at hr
  by_contra hlt
  rw [List.getElem?_eq_none (Nat.le_of_not_lt hlt)] at hr
  cases hr

theorem Heap.read_append_left {α : Type} (h t : Heap α) {a : Nat} (ha : a < h.length) :
    Heap.read (h ++ t) a = h.read a := by
  unfold Heap.read
  rw [List.getElem?_append_left ha]

theorem Heap.read_append_length {α : Type} (h : Heap α) (n : Node α) (t : Heap α) :
    Heap.read (h ++ some n :: t) h.length = some n := by
  rw [Heap.read_eq_some_iff]
  rw [List.getElem?_append_right (Nat.le_refl _)]
  simp

theorem Heap.read_set_ne {α : Type} (h : Heap α) {a b : Nat} (c : Option (Node α)) (hab : a ≠ b) :
    Heap.read (h.set a c) b = h.read b := by
  unfold Heap.read
  rw [List.getElem?_set_ne hab]

theorem Heap.read_set_eq {α : Type} (h : Heap α) {a : Nat} (c : Option (Node α)) (ha : a < h.length) :
    Heap.read (h.set a c) a = c := by
  unfold Heap.read
  rw [List.getElem?_set_self ha]
  cases c <;> rfl

theorem Seg.addr_lt {α : Type} {h : Heap α} {p q : Option Nat} {cs : List (Nat × α)}
    (hs : Seg h p cs q) : ∀ c ∈ cs, c.1 < h.length := by
  induction cs generalizing p with
  | nil => intro c hc; cases hc
  | cons c cs ih =>
    obtain ⟨_, nx, hr, hrest⟩ := hs
    intro d hd
    rcases List.mem_cons.mp hd with rfl | hd
    · exact Heap.read_lt_length hr
    · exact ih hrest d hd

theorem Seg.append_heap {α : Type} {h : Heap α} {p q : Option Nat} {cs : List (Nat × α)}
    (hs : Seg h p cs q) (t : Heap α) : Seg (h ++ t) p cs q := by
  induction cs generalizing p with
  | nil => exact hs
  | cons c cs ih =>
    obtain ⟨hp, nx, hr, hrest⟩ := hs
    refine ⟨hp, nx, ?_, ih hrest⟩
    rw [Heap.read_append_left h t (Heap.read_lt_length hr)]
    exact hr

theorem Seg.set_heap {α : Type} {h : Heap α} {p q : Option Nat} {cs : List (Nat × α)}
    (hs : Seg h p cs q) (a : Nat) (v : Option (Node α)) (ha : ∀ c ∈ cs, c.1 ≠ a) :
    Seg (h.set a v) p cs q := by
  induction cs generalizing p with
  | nil => exact hs
  | cons c cs ih =>
    obtain ⟨hp, nx, hr, hrest⟩ := hs
    refine ⟨hp, nx, ?_, ih hrest (fun d hd => ha d (List.mem_cons_of_mem _ hd))⟩
    rw [Heap.read_set_ne h v (Ne.symm (ha c (List.mem_cons_self _ _)))]
    exact hr

theorem Seg.append_iff {α : Type} {h : Heap α} {p q : Option Nat} {cs ds : List (Nat × α)} :
    Seg h p (cs ++ ds) q ↔ ∃ m, Seg h p cs m ∧ Seg h m ds q := by
  induction cs generalizing p with
  | nil =>
    constructor
    · intro hs; exact ⟨p, rfl, hs⟩
    · rintro ⟨m, hm, hs⟩
      have : p = m := hm
      subst this
      exact hs
  | cons c cs ih =>
    constructor
    · rintro ⟨hp, nx, hr, hrest⟩
      obtain ⟨m, h1, h2⟩ := ih.mp hrest
      exact ⟨m, ⟨hp, nx, hr, h1⟩, h2⟩
    · rintro ⟨m, ⟨hp, nx, hr, h1⟩, h2⟩
      exact ⟨hp, nx, hr, ih.mpr ⟨m, h1, h2⟩⟩

/-- A chain that ends in `nullptr` is determined by its first link. -/
theorem Seg.unique {α : Type} {h : Heap α} {p : Option Nat} {cs ds : List (Nat × α)}
    (hc : Seg h p cs none) (hd : Seg h p ds none) : cs = ds := by
  induction cs generalizing p ds with
  | nil =>
    have hp : p = none := hc
    subst hp
    cases ds with
    | nil => rfl
    | cons d ds => exact absurd hd.1 (by simp)
  | cons c cs ih =>
    obtain ⟨hp, nx, hr, hrest⟩ := hc
    cases ds with
    | nil =>
      have hp2 : p = none := hd
      rw [hp2] at hp
      cases hp
    | cons d ds =>
      obtain ⟨hp2, nx2, hr2, hrest2⟩ := hd
      rw [hp] at hp2
      have hcd : c.1 = d.1 := Option.some.inj hp2
      rw [← hcd, hr] at hr2
      have hn := Option.some.inj hr2
      have hv : c.2 = d.2 := congrArg Node.value hn
      have hx : nx = nx2 := congrArg Node.next_node hn
      subst hx
      have := ih hrest hrest2
      subst this
      have : c = d := Prod.ext hcd hv
      rw [this]

/-- A chain that ends in `nullptr` meets no node twice. -/
theorem Seg.nodup {α : Type} {h : Heap α} {p : Option Nat} {cs : List (Nat × α)}
    (hc : Seg h p cs none) : (cs.map Prod.fst).Nodup := by
  induction cs generalizing p with
  | nil => exact List.nodup_nil
  | cons c cs ih =>
    obtain ⟨hp, nx, hr, hrest⟩ := hc
    rw [List.map_cons, List.nodup_cons]
    refine ⟨?_, ih hrest⟩
    intro hmem
    obtain ⟨d, hd, hdc⟩ := List.mem_map.mp hmem
    obtain ⟨pre, suf, hsplit⟩ := List.append_of_mem hd
    rw [hsplit] at hrest
    obtain ⟨m, _, hsuf⟩ := Seg.append_iff.mp hrest
    obtain ⟨hm, nx2, hr2, hsuf2⟩ := hsuf
    rw [hdc, hr] at hr2
    have hn := Option.some.inj hr2
    have hx : nx = nx2 := congrArg Node.next_node hn
    subst hx
    rw [← hsplit] at hrest
    have := Seg.unique hrest hsuf2
    have hlen := congrArg List.length this
    rw [hsplit] at hlen
    simp at hlen
    omega

/-- A chain that ends in `nullptr` has at most as many nodes as addresses were
handed out. -/
theorem Seg.length_le {α : Type} {h : Heap α} {p : Option Nat} {cs : List (Nat × α)}
    (hc : Seg h p cs none) : cs.length ≤ h.length := by
  have hnd := Seg.nodup hc
  have hlt := Seg.addr_lt hc
  have hsub : (cs.map Prod.fst).toFinset ⊆ Finset.range h.length := by
    intro a ha
    rw [List.mem_toFinset] at ha
    obtain ⟨c, hcm, rfl⟩ := List.mem_map.mp ha
    exact Finset.mem_range.mpr (hlt c hcm)
  have hcard := Finset.card_le_card hsub
  rw [List.toFinset_card_of_nodup hnd, Finset.card_range, List.length_map] at hcard
  exact hcard

@[simp] theorem NodePtr.ofLink_none : NodePtr.ofLink none = NodePtr.null := rfl

@[simp] theorem NodePtr.ofLink_some (a : Nat) : NodePtr.ofLink (some a) = NodePtr.node a := rfl

theorem collect_of_seg {α : Type} (s : State α) {p : Option Nat} {cs : List (Nat × α)}
    (hc : Seg s.heap p cs none) (fuel : Nat) (hf : cs.length ≤ fuel) :
    collect s fuel (NodePtr.ofLink p) NodePtr.null = some (cs.map Prod.snd) := by
  induction cs generalizing p fuel with
  | nil =>
    have hp : p = none := hc
    subst hp
    cases fuel <;> simp [collect]
  | cons c cs ih =>
    obtain ⟨hp, nx, hr, hrest⟩ := hc
    subst hp
    cases fuel with
    | zero => simp at hf
    | succ fuel =>
      have hf2 : cs.length ≤ fuel := by simpa using hf
      simp [collect, Iterator.deref, Iterator.inc, State.next_node, hr, ih hrest fuel hf2]

theorem seg_of_collect {α : Type} (s : State α) (fuel : Nat) (p : Option Nat) (xs : List α)
    (hc : collect s fuel (NodePtr.ofLink p) NodePtr.null = some xs) :
    ∃ cs, Seg s.heap p cs none ∧ cs.map Prod.snd = xs := by
  induction fuel generalizing p xs with
  | zero =>
    cases p with
    | none =>
      simp [collect] at hc
      exact ⟨[], rfl, by simp [hc]⟩
    | some a => simp [collect] at hc
  | succ fuel ih =>
    cases p with
    | none =>
      simp [collect] at hc
      exact ⟨[], rfl, by simp [hc]⟩
    | some a =>
      simp only [collect, NodePtr.ofLink_some, Iterator.deref, Iterator.inc,
        State.next_node] at hc
      cases hr : s.heap.read a with
      | none => simp [hr] at hc
      | some nd =>
        cases hrec : collect s fuel (NodePtr.ofLink nd.next_node) NodePtr.null with
        | none => simp [hr, hrec] at hc
        | some rest =>
          simp [hr, hrec] at hc
          obtain ⟨cs, hseg, hmap⟩ := ih nd.next_node rest hrec
          refine ⟨(a, nd.value) :: cs, ⟨rfl, nd.next_node, ?_, hseg⟩, ?_⟩
          · exact hr
          · simp [hmap, hc]

/-- The element sequence is `xs` exactly when the chain from `head_.next_node`
ends in `nullptr` and holds the values `xs`. -/
theorem elements_eq_some_iff {α : Type} (s : State α) (xs : List α) :
    elements s = some xs ↔
      ∃ cs, Seg s.heap s.list.head_next_node cs none ∧ cs.map Prod.snd = xs := by
  constructor
  · intro he
    exact seg_of_collect s _ _ xs he
  · rintro ⟨cs, hseg, rfl⟩
    exact collect_of_seg s hseg _ (Seg.length_le hseg)

theorem distance_of_seg {α : Type} (s : State α) {p : Option Nat} {cs : List (Nat × α)}
    (hc : Seg s.heap p cs none) (fuel : Nat) (hf : cs.length ≤ fuel) :
    distance s fuel (NodePtr.ofLink p) NodePtr.null = some cs.length := by
  induction cs generalizing p fuel with
  | nil =>
    have hp : p = none := hc
    subst hp
    cases fuel <;> simp [distance]
  | cons c cs ih =>
    obtain ⟨hp, nx, hr, hrest⟩ := hc
    subst hp
    cases fuel with
    | zero => simp at hf
    | succ fuel =>
      have hf2 : cs.length ≤ fuel := by simpa using hf
      simp [distance, Iterator.inc, State.next_node, hr, ih hrest fuel hf2]

theorem countNodes_of_seg {α : Type} (s : State α) {cs : List (Nat × α)}
    (hc : Seg s.heap s.list.head_next_node cs none) : countNodes s = some cs.length :=
  distance_of_seg s hc _ (Seg.length_le hc)

theorem Heap.read_new_old {α : Type} (h : Heap α) (v : α) (nx : Option Nat) {a : Nat}
    (ha : a < h.length) : (h.new v nx).2.read a = h.read a :=
  Heap.read_append_left h _ ha

theorem Heap.read_new_self {α : Type} (h : Heap α) (v : α) (nx : Option Nat) :
    (h.new v nx).2.read h.length = some ⟨v, nx⟩ :=
  Heap.read_append_length h ⟨v, nx⟩ []

theorem Heap.length_new {α : Type} (h : Heap α) (v : α) (nx : Option Nat) :
    (h.new v nx).2.length = h.length + 1 := by
  simp [Heap.new]

theorem Heap.length_store {α : Type} (h : Heap α) (a : Nat) (n : Node α) :
    (h.store a n).length = h.length := by
  simp [Heap.store]

theorem Heap.length_delete {α : Type} (h : Heap α) (a : Nat) : (h.delete a).length = h.length := by
  simp [Heap.delete]

theorem Heap.read_store_self {α : Type} (h : Heap α) {a : Nat} (n : Node α) (ha : a < h.length) :
    (h.store a n).read a = some n :=
  Heap.read_set_eq h (some n) ha

theorem Heap.read_store_ne {α : Type} (h : Heap α) {a b : Nat} (n : Node α) (hab : a ≠ b) :
    (h.store a n).read b = h.read b :=
  Heap.read_set_ne h (some n) hab

theorem Heap.read_delete_ne {α : Type} (h : Heap α) {a b : Nat} (hab : a ≠ b) :
    (h.delete a).read b = h.read b :=
  Heap.read_set_ne h none hab

theorem Seg.new_heap {α : Type} {h : Heap α} {p q : Option Nat} {cs : List (Nat × α)}
    (hs : Seg h p cs q) (v : α) (nx : Option Nat) : Seg (h.new v nx).2 p cs q :=
  Seg.append_heap hs _

theorem Seg.store_heap {α : Type} {h : Heap α} {p q : Option Nat} {cs : List (Nat × α)}
    (hs : Seg h p cs q) (a : Nat) (n : Node α) (ha : ∀ c ∈ cs, c.1 ≠ a) :
    Seg (h.store a n) p cs q :=
  Seg.set_heap hs a (some n) ha

theorem Seg.delete_heap {α : Type} {h : Heap α} {p q : Option Nat} {cs : List (Nat × α)}
    (hs : Seg h p cs q) (a : Nat) (ha : ∀ c ∈ cs, c.1 ≠ a) :
    Seg (h.delete a) p cs q :=
  Seg.set_heap hs a none ha

theorem Seg.ne_length {α : Type} {h : Heap α} {p q : Option Nat} {cs : List (Nat × α)}
    (hs : Seg h p cs q) : ∀ c ∈ cs, c.1 ≠ h.length :=
  fun c hcm => Nat.ne_of_lt (Seg.addr_lt hs c hcm)

theorem Seg.ne_of_mem_cons {α : Type} {h : Heap α} {a : Nat} {x : α} {cs : List (Nat × α)}
    (hc : Seg h (some a) ((a, x) :: cs) none) : ∀ c ∈ cs, c.1 ≠ a := by
  intro c hcm hca
  have hnd := Seg.nodup hc
  rw [List.map_cons, List.nodup_cons] at hnd
  exact hnd.1 (List.mem_map.mpr ⟨c, hcm, hca⟩)

theorem PushFront_seg {α : Type} (s : State α) (v : α) {cs : List (Nat × α)}
    (hc : Seg s.heap s.list.head_next_node cs none) :
    Seg (PushFront s v).heap (PushFront s v).list.head_next_node
      ((s.heap.length, v) :: cs) none :=
  ⟨rfl, s.list.head_next_node, Heap.read_new_self s.heap v _, Seg.new_heap hc v _⟩

theorem PopFront_seg {α : Type} (s : State α) {c : Nat × α} {cs : List (Nat × α)}
    (hc : Seg s.heap s.list.head_next_node (c :: cs) none) (hsz : s.list.size_ ≠ 0) :
    ∃ s', PopFront s = some s' ∧ Seg s'.heap s'.list.head_next_node cs none ∧
      s'.list.size_ + 1 = s.list.size_ := by
  have hc0 := hc
  obtain ⟨hp, nx, hr, hrest⟩ := hc
  refine ⟨⟨⟨nx, s.list.size_ - 1⟩, s.heap.delete c.1⟩, ?_, ?_, ?_⟩
  · simp [PopFront, IsEmpty, hsz, hp, hr]
  · rw [hp] at hc0
    exact Seg.delete_heap hrest c.1 (Seg.ne_of_mem_cons hc0)
  · show s.list.size_ - 1 + 1 = s.list.size_
    omega

/-- What a chain through `pre`, the node `c` and `suf` says about its parts. -/
theorem Seg.split {α : Type} {h : Heap α} {p : Option Nat} {pre suf : List (Nat × α)} {c : Nat × α}
    (hc : Seg h p (pre ++ c :: suf) none) :
    ∃ m, Seg h p pre (some c.1) ∧ h.read c.1 = some ⟨c.2, m⟩ ∧ Seg h m suf none ∧
      (∀ d ∈ pre, d.1 ≠ c.1) ∧ (∀ d ∈ suf, d.1 ≠ c.1) := by
  have hnd := Seg.nodup hc
  obtain ⟨q, hpre, hq, m, hr, hsuf⟩ := Seg.append_iff.mp hc
  subst hq
  refine ⟨m, hpre, hr, hsuf, ?_, ?_⟩
  · intro d hd hdc
    rw [List.map_append, List.map_cons, List.nodup_append] at hnd
    exact hnd.2.2 (List.mem_map.mpr ⟨d, hd, rfl⟩) (by rw [hdc]; exact List.mem_cons_self _ _)
  · intro d hd hdc
    rw [List.map_append, List.map_cons, List.nodup_append, List.nodup_cons] at hnd
    exact hnd.2.1.1 (List.mem_map.mpr ⟨d, hd, hdc⟩)

theorem InsertAfter_head {α : Type} (s : State α) (v : α) {cs : List (Nat × α)}
    (hc : Seg s.heap s.list.head_next_node cs none) :
    ∃ s', InsertAfter s NodePtr.head v = some (s', NodePtr.node s.heap.length) ∧
      Seg s'.heap s'.list.head_next_node ((s.heap.length, v) :: cs) none ∧
      s'.list.size_ = s.list.size_ + 1 ∧
      s'.heap.read s.heap.length = some ⟨v, s.list.head_next_node⟩ ∧
      s'.list.head_next_node = some s.heap.length := by
  have h1 := Heap.read_new_self s.heap v s.list.head_next_node
  have hrd : ((s.heap.new v s.list.head_next_node).2.store s.heap.length
      ⟨v, s.list.head_next_node⟩).read s.heap.length = some ⟨v, s.list.head_next_node⟩ :=
    Heap.read_store_self _ _ (by rw [Heap.length_new]; omega)
  refine ⟨⟨⟨some s.heap.length, s.list.size_ + 1⟩,
    (s.heap.new v s.list.head_next_node).2.store s.heap.length
      ⟨v, s.list.head_next_node⟩⟩, ?_, ?_, rfl, hrd, rfl⟩
  · have e1 : (s.heap.new v s.list.head_next_node).1 = s.heap.length := rfl
    simp [InsertAfter, State.next_node, State.set_next_node, Heap.setNext, h1, e1]
  · exact ⟨rfl, s.list.head_next_node, hrd,
      Seg.store_heap (Seg.new_heap hc v _) _ _ (Seg.ne_length hc)⟩

theorem InsertAfter_node {α : Type} (s : State α) (v : α) {pre suf : List (Nat × α)} {a : Nat} {x : α}
    (hc : Seg s.heap s.list.head_next_node (pre ++ (a, x) :: suf) none) :
    ∃ s' m, InsertAfter s (NodePtr.node a) v = some (s', NodePtr.node s.heap.length) ∧
      Seg s'.heap s'.list.head_next_node (pre ++ (a, x) :: (s.heap.length, v) :: suf) none ∧
      s'.list.size_ = s.list.size_ + 1 ∧
      s.heap.read a = some ⟨x, m⟩ ∧
      s'.heap.read s.heap.length = some ⟨v, m⟩ ∧
      s'.heap.read a = some ⟨x, some s.heap.length⟩ := by
  obtain ⟨m, hpre, hr, hsuf, hnp, hns⟩ := Seg.split hc
  simp only at hpre hr hnp hns
  have ha : a < s.heap.length := Heap.read_lt_length hr
  have hne : s.heap.length ≠ a := Nat.ne_of_gt ha
  have hr1 : (s.heap.new v m).2.read a = some ⟨x, m⟩ := by
    rw [Heap.read_new_old _ _ _ ha]; exact hr
  have hrn1 : (s.heap.new v m).2.read s.heap.length = some ⟨v, m⟩ :=
    Heap.read_new_self s.heap v m
  have hrn2 : ((s.heap.new v m).2.store a ⟨x, some s.heap.length⟩).read s.heap.length
      = some ⟨v, m⟩ := by
    rw [Heap.read_store_ne _ _ (Ne.symm hne)]; exact hrn1
  have hra2 : ((s.heap.new v m).2.store a ⟨x, some s.heap.length⟩).read a
      = some ⟨x, some s.heap.length⟩ :=
    Heap.read_store_self _ _ (by rw [Heap.length_new]; omega)
  have hrn3 : (((s.heap.new v m).2.store a ⟨x, some s.heap.length⟩).store s.heap.length
      ⟨v, m⟩).read s.heap.length = some ⟨v, m⟩ :=
    Heap.read_store_self _ _ (by rw [Heap.length_store, Heap.length_new]; omega)
  have hra3 : (((s.heap.new v m).2.store a ⟨x, some s.heap.length⟩).store s.heap.length
      ⟨v, m⟩).read a = some ⟨x, some s.heap.length⟩ := by
    rw [Heap.read_store_ne _ _ hne]; exact hra2
  refine ⟨⟨⟨s.list.head_next_node, s.list.size_ + 1⟩,
    ((s.heap.new v m).2.store a ⟨x, some s.heap.length⟩).store s.heap.length ⟨v, m⟩⟩,
    m, ?_, ?_, rfl, hr, hrn3, hra3⟩
  · have e1 : (s.heap.new v m).1 = s.heap.length := rfl
    simp [InsertAfter, State.next_node, State.set_next_node, Heap.setNext, hr, hr1, e1,
      hra2, hrn2, hra3]
  · apply Seg.append_iff.mpr
    refine ⟨some a, ?_, rfl, some s.heap.length, hra3, rfl, m, hrn3, ?_⟩
    · exact Seg.store_heap (Seg.store_heap (Seg.new_heap hpre v m) _ _ hnp) _ _
        (Seg.ne_length hpre)
    · exact Seg.store_heap (Seg.store_heap (Seg.new_heap hsuf v m) _ _ hns) _ _
        (Seg.ne_length hsuf)

theorem EraseAfter_head {α : Type} (s : State α) {b : Nat} {y : α} {suf : List (Nat × α)}
    (hc : Seg s.heap s.list.head_next_node ((b, y) :: suf) none) (hsz : s.list.size_ ≠ 0) :
    ∃ s' m, EraseAfter s NodePtr.head = some (s', NodePtr.ofLink m) ∧
      Seg s'.heap s'.list.head_next_node suf none ∧
      s'.list.size_ + 1 = s.list.size_ ∧
      s'.list.head_next_node = m ∧ Seg s'.heap m suf none := by
  have hc0 := hc
  obtain ⟨hp, m, hr, hsuf⟩ := hc
  simp only at hp hr
  rw [hp] at hc0
  have hs2 : Seg (s.heap.delete b) m suf none :=
    Seg.delete_heap hsuf b (Seg.ne_of_mem_cons hc0)
  refine ⟨⟨⟨m, s.list.size_ - 1⟩, s.heap.delete b⟩, m, ?_, hs2, ?_, rfl, hs2⟩
  · simp [EraseAfter, IsEmpty, hsz, State.next_node, State.set_next_node, hp, hr]
  · show s.list.size_ - 1 + 1 = s.list.size_
    omega

theorem EraseAfter_node {α : Type} (s : State α) {pre suf : List (Nat × α)} {a b : Nat} {x y : α}
    (hc : Seg s.heap s.list.head_next_node (pre ++ (a, x) :: (b, y) :: suf) none)
    (hsz : s.list.size_ ≠ 0) :
    ∃ s' m, EraseAfter s (NodePtr.node a) = some (s', NodePtr.ofLink m) ∧
      Seg s'.heap s'.list.head_next_node (pre ++ (a, x) :: suf) none ∧
      s'.list.size_ + 1 = s.list.size_ ∧
      s'.heap.read a = some ⟨x, m⟩ ∧ Seg s'.heap m suf none := by
  obtain ⟨m0, hpre, hra, hsuf0, hnp, hns⟩ := Seg.split hc
  simp only at hpre hra hnp hns
  have hc2 : Seg s.heap s.list.head_next_node ((pre ++ [(a, x)]) ++ (b, y) :: suf) none := by
    simpa using hc
  obtain ⟨m, _, hrb, hsuf, hbp, hbs⟩ := Seg.split hc2
  simp only at hrb hbp hbs
  obtain ⟨hm0, _⟩ := hsuf0
  simp only at hm0
  subst hm0
  have hab : a ≠ b := fun e => hns (b, y) (List.mem_cons_self _ _) e.symm
  have ha : a < s.heap.length := Heap.read_lt_length hra
  have hra1 : (s.heap.delete b).read a = some ⟨x, some b⟩ := by
    rw [Heap.read_delete_ne _ (Ne.symm hab)]; exact hra
  have hra2 : ((s.heap.delete b).store a ⟨x, m⟩).read a = some ⟨x, m⟩ :=
    Heap.read_store_self _ _ (by rw [Heap.length_delete]; exact ha)
  have hs2 : Seg ((s.heap.delete b).store a ⟨x, m⟩) m suf none :=
    Seg.store_heap (Seg.delete_heap hsuf b hbs) a _
      (fun d hd => hns d (List.mem_cons_of_mem _ hd))
  refine ⟨⟨⟨s.list.head_next_node, s.list.size_ - 1⟩, (s.heap.delete b).store a ⟨x, m⟩⟩,
    m, ?_, ?_, ?_, hra2, hs2⟩
  · simp [EraseAfter, IsEmpty, hsz, State.next_node, State.set_next_node, Heap.setNext,
      hra, hrb, hra1, hra2]
  · apply Seg.append_iff.mpr
    refine ⟨some a, ?_, rfl, m, hra2, hs2⟩
    exact Seg.store_heap
      (Seg.delete_heap hpre b (fun d hd => hbp d (List.mem_append_left _ hd))) a _ hnp
  · show s.list.size_ - 1 + 1 = s.list.size_
    omega

/-- Where `k` advances lead inside a chain. -/
theorem advance_link {α : Type} (s : State α) {p : Option Nat} {cs : List (Nat × α)}
    (hc : Seg s.heap p cs none) (k : Nat) (hk : k ≤ cs.length) :
    ∃ q, advance s k (NodePtr.ofLink p) = some (NodePtr.ofLink q) ∧
      Seg s.heap p (cs.take k) q ∧ Seg s.heap q (cs.drop k) none := by
  induction k generalizing p cs with
  | zero => exact ⟨p, rfl, rfl, hc⟩
  | succ k ih =>
    cases cs with
    | nil => simp at hk
    | cons c cs =>
      obtain ⟨hp, nx, hr, hrest⟩ := hc
      subst hp
      obtain ⟨q, hadv, h1, h2⟩ := ih hrest (by simpa using hk)
      refine ⟨q, ?_, ⟨rfl, nx, hr, h1⟩, h2⟩
      simp [advance, Iterator.inc, State.next_node, hr, hadv]

/-- The position `k` advances after `before_begin()`: the sentinel for `k = 0`,
else the node that closes the first `k` nodes of the chain. -/
theorem advance_before_begin {α : Type} (s : State α) {cs : List (Nat × α)}
    (hc : Seg s.heap s.list.head_next_node cs none) (k : Nat) (hk : k ≤ cs.length) :
    (k = 0 ∧ advance s k before_begin = some NodePtr.head) ∨
    (∃ a x pre suf, advance s k before_begin = some (NodePtr.node a) ∧
      cs = pre ++ (a, x) :: suf ∧ pre.length + 1 = k) := by
  cases k with
  | zero => exact Or.inl ⟨rfl, rfl⟩
  | succ k =>
    right
    obtain ⟨q, hadv, _, h2⟩ := advance_link s hc k (by omega)
    have hlt : k < cs.length := by omega
    have hdrop : cs.drop k = cs[k] :: cs.drop (k + 1) := List.drop_eq_getElem_cons hlt
    rw [hdrop] at h2
    obtain ⟨hq, _⟩ := h2
    subst hq
    refine ⟨cs[k].1, cs[k].2, cs.take k, cs.drop (k + 1), ?_, ?_, ?_⟩
    · simpa [advance, before_begin, Iterator.inc, State.next_node] using hadv
    · rw [← hdrop, List.take_append_drop]
    · rw [List.length_take]; omega

theorem Seg.nil_iff {α : Type} {h : Heap α} {p : Option Nat} {cs : List (Nat × α)}
    (hc : Seg h p cs none) : p = none ↔ cs = [] := by
  cases cs with
  | nil => exact ⟨fun _ => rfl, fun _ => hc⟩
  | cons c cs =>
    constructor
    · intro hp; rw [hp] at hc; exact absurd hc.1 (by simp)
    · intro hcs; cases hcs

/-- The positions the spec names as having no successor are such positions: in
a list with element sequence `l`, the position reached by `length l` advances
from `before_begin()` is the last element, or the sentinel when `l` is empty. -/
theorem NoSuccessor_last {α : Type} (s : State α) (l : List α) (hl : elements s = some l) :
    ∃ pos, advance s l.length before_begin = some pos ∧ pos ≠ NodePtr.null ∧
      NoSuccessor s pos := by
  obtain ⟨cs, hc, rfl⟩ := (elements_eq_some_iff s l).mp hl
  rw [List.length_map]
  rcases advance_before_begin s hc cs.length (Nat.le_refl _) with
    ⟨h0, hadv⟩ | ⟨a, x, pre, suf, hadv, hcs, hlen⟩
  · rw [h0] at hadv
    refine ⟨NodePtr.head, by rw [h0]; exact hadv, by simp, Or.inr ?_⟩
    have : cs = [] := List.length_eq_zero.mp h0
    subst this
    have hp : s.list.head_next_node = none := hc
    simp [State.next_node, hp]
  · refine ⟨NodePtr.node a, hadv, by simp, Or.inr ?_⟩
    have hsuf : suf = [] := by
      have := congrArg List.length hcs
      simp at this
      exact List.length_eq_zero.mp (by omega)
    subst hsuf
    rw [hcs] at hc
    obtain ⟨m, _, hr, hm, _, _⟩ := Seg.split hc
    have hm' : m = none := hm
    subst hm'
    simp only at hr
    simp [State.next_node, hr]

theorem ClearLoop_seg {α : Type} {h : Heap α} {p : Option Nat} {cs : List (Nat × α)}
    (hc : Seg h p cs none) :
    ∃ h', ClearLoop cs.length p h = some ⟨⟨none, 0⟩, h'⟩ ∧ h'.length = h.length := by
  induction cs generalizing p h with
  | nil =>
    have hp : p = none := hc
    subst hp
    exact ⟨h, rfl, rfl⟩
  | cons c cs ih =>
    have hc0 := hc
    obtain ⟨hp, nx, hr, hrest⟩ := hc
    subst hp
    obtain ⟨h', hcl, hlen⟩ := ih (Seg.delete_heap hrest c.1 (Seg.ne_of_mem_cons hc0))
    refine ⟨h', ?_, by rw [hlen, Heap.length_delete]⟩
    simp [ClearLoop, hr, hcl]

/-- The loop of `Assign`: the scratch list grows at its tail by one node per
value, in the order of the values. -/
theorem AssignLoop_seg {α : Type} (vs : List α) (tmp : State α) (last : NodePtr) (cs : List (Nat × α))
    (hc : Seg tmp.heap tmp.list.head_next_node cs none)
    (hlast : (cs = [] ∧ last = NodePtr.head) ∨
      (∃ pre a x, cs = pre ++ [(a, x)] ∧ last = NodePtr.node a)) :
    ∃ tmp' ds, AssignLoop vs tmp last = some tmp' ∧
      Seg tmp'.heap tmp'.list.head_next_node (cs ++ ds) none ∧
      ds.map Prod.snd = vs ∧ tmp'.list.size_ = tmp.list.size_ + vs.length := by
  induction vs generalizing tmp last cs with
  | nil => exact ⟨tmp, [], rfl, by simpa using hc, rfl, rfl⟩
  | cons v rest ih =>
    have hn1 := Heap.read_new_self tmp.heap v none
    rcases hlast with ⟨rfl, rfl⟩ | ⟨pre, a, x, rfl, rfl⟩
    · have hseg : Seg (tmp.heap.new v none).2 (some tmp.heap.length)
          ([] ++ [(tmp.heap.length, v)]) none := ⟨rfl, none, hn1, rfl⟩
      obtain ⟨tmp', ds, hloop, hres, hmap, hsz⟩ :=
        ih ⟨⟨some tmp.heap.length, tmp.list.size_ + 1⟩, (tmp.heap.new v none).2⟩
          (NodePtr.node tmp.heap.length) _ hseg (Or.inr ⟨[], _, _, rfl, rfl⟩)
      refine ⟨tmp', (tmp.heap.length, v) :: ds, ?_, by simpa using hres, by simp [hmap], ?_⟩
      · have e1 : (tmp.heap.new v none).1 = tmp.heap.length := rfl
        simpa [AssignLoop, State.set_next_node, e1] using hloop
      · simp only [List.length_cons]
        simp only at hsz
        omega
    · obtain ⟨m, hpre, hra, hm, hnp, _⟩ := Seg.split hc
      have hm' : m = none := hm
      subst hm'
      simp only at hpre hra hnp
      have ha : a < tmp.heap.length := Heap.read_lt_length hra
      have hra1 : (tmp.heap.new v none).2.read a = some ⟨x, none⟩ := by
        rw [Heap.read_new_old _ _ _ ha]; exact hra
      have hra2 : ((tmp.heap.new v none).2.store a ⟨x, some tmp.heap.length⟩).read a
          = some ⟨x, some tmp.heap.length⟩ :=
        Heap.read_store_self _ _ (by rw [Heap.length_new]; omega)
      have hn2 : ((tmp.heap.new v none).2.store a ⟨x, some tmp.heap.length⟩).read tmp.heap.length
          = some ⟨v, none⟩ := by
        rw [Heap.read_store_ne _ _ (Nat.ne_of_lt ha)]; exact hn1
      have hseg : Seg ((tmp.heap.new v none).2.store a ⟨x, some tmp.heap.length⟩)
          tmp.list.head_next_node ((pre ++ [(a, x)]) ++ [(tmp.heap.length, v)]) none := by
        apply Seg.append_iff.mpr
        refine ⟨some tmp.heap.length, ?_, rfl, none, hn2, rfl⟩
        apply Seg.append_iff.mpr
        exact ⟨some a, Seg.store_heap (Seg.new_heap hpre v none) _ _ hnp,
          rfl, some tmp.heap.length, hra2, rfl⟩
      obtain ⟨tmp', ds, hloop, hres, hmap, hsz⟩ :=
        ih ⟨⟨tmp.list.head_next_node, tmp.list.size_ + 1⟩,
            (tmp.heap.new v none).2.store a ⟨x, some tmp.heap.length⟩⟩
          (NodePtr.node tmp.heap.length) _ hseg (Or.inr ⟨_, _, _, rfl, rfl⟩)
      refine ⟨tmp', (tmp.heap.length, v) :: ds, ?_, by simpa using hres, by simp [hmap], ?_⟩
      · have e1 : (tmp.heap.new v none).1 = tmp.heap.length := rfl
        simpa [AssignLoop, State.set_next_node, Heap.setNext, e1, hra1] using hloop
      · simp only [List.length_cons]
        simp only at hsz
        omega

theorem ofInitializerList_seg {α : Type} (h : Heap α) (vs : List α) :
    ∃ s cs, ofInitializerList h vs = some s ∧ Seg s.heap s.list.head_next_node cs none ∧
      cs.map Prod.snd = vs ∧ s.list.size_ = cs.length := by
  obtain ⟨tmp, ds, hloop, hseg, hmap, hsz⟩ :=
    AssignLoop_seg vs (State.empty h) NodePtr.head [] rfl (Or.inl ⟨rfl, rfl⟩)
  refine ⟨⟨tmp.list, tmp.heap⟩, ds, ?_, by simpa using hseg, hmap, ?_⟩
  · simp [ofInitializerList, Assign, State.empty, swap, Clear, ClearLoop] at hloop ⊢
    simp [hloop]
  · have hlen : ds.length = vs.length := by rw [← hmap, List.length_map]
    have hsz' : tmp.list.size_ = 0 + vs.length := hsz
    show tmp.list.size_ = ds.length
    omega

theorem EraseAfter_of_NoSuccessor {α : Type} (s : State α) (pos : NodePtr) (hpos : NoSuccessor s pos) :
    EraseAfter s pos = some (s, end_) := by
  unfold EraseAfter
  by_cases he : IsEmpty s = true
  · simp [he]
  · by_cases hn : pos = NodePtr.null
    · simp [he, hn]
    · rcases hpos with h | h
      · exact absurd h hn
      · simp [he, hn, h]

theorem Inv.pushFront {α : Type} {s : State α} (hi : Inv s) (v : α) : Inv (PushFront s v) := by
  obtain ⟨cs, hc, hsz⟩ := hi
  refine ⟨_, PushFront_seg s v hc, ?_⟩
  show s.list.size_ + 1 = cs.length + 1
  rw [hsz]

theorem Inv.popFront {α : Type} {s : State α} (hi : Inv s) :
    ∃ s', PopFront s = some s' ∧ Inv s' := by
  obtain ⟨cs, hc, hsz⟩ := hi
  cases cs with
  | nil =>
    refine ⟨s, ?_, [], hc, hsz⟩
    have h0 : s.list.size_ = 0 := hsz
    simp [PopFront, IsEmpty, h0]
  | cons c cs =>
    have hne : s.list.size_ ≠ 0 := by rw [hsz]; simp
    obtain ⟨s', hpop, hseg, hsz'⟩ := PopFront_seg s hc hne
    refine ⟨s', hpop, cs, hseg, ?_⟩
    simp only [List.length_cons] at hsz
    omega

theorem Inv.clear {α : Type} {s : State α} (hi : Inv s) : ∃ s', Clear s = some s' ∧ Inv s' := by
  obtain ⟨cs, hc, hsz⟩ := hi
  obtain ⟨h', hcl, _⟩ := ClearLoop_seg hc
  refine ⟨⟨⟨none, 0⟩, h'⟩, ?_, [], rfl, rfl⟩
  unfold Clear
  rw [hsz]
  exact hcl

theorem Inv.insertAfter {α : Type} {s : State α} (hi : Inv s) (k : Nat) (hk : k ≤ s.list.size_) (v : α) :
    ∃ pos s' it, advance s k before_begin = some pos ∧
      InsertAfter s pos v = some (s', it) ∧ Inv s' := by
  obtain ⟨cs, hc, hsz⟩ := hi
  rw [hsz] at hk
  rcases advance_before_begin s hc k hk with ⟨_, hadv⟩ | ⟨a, x, pre, suf, hadv, rfl, _⟩
  · obtain ⟨s', hins, hseg, hsz', _, _⟩ := InsertAfter_head s v hc
    exact ⟨_, s', _, hadv, hins, _, hseg, by rw [hsz', hsz]; simp⟩
  · obtain ⟨s', m, hins, hseg, hsz', _, _, _⟩ := InsertAfter_node s v hc
    exact ⟨_, s', _, hadv, hins, _, hseg, by rw [hsz', hsz]; simp; omega⟩

theorem Inv.eraseAfter {α : Type} {s : State α} (hi : Inv s) (k : Nat) (hk : k ≤ s.list.size_) :
    ∃ pos s' it, advance s k before_begin = some pos ∧
      EraseAfter s pos = some (s', it) ∧ Inv s' := by
  have hi0 := hi
  obtain ⟨cs, hc, hsz⟩ := hi
  rw [hsz] at hk
  rcases advance_before_begin s hc k hk with ⟨_, hadv⟩ | ⟨a, x, pre, suf0, hadv, rfl, _⟩
  · cases cs with
    | nil =>
      have hp : s.list.head_next_node = none := hc
      exact ⟨_, s, _, hadv, EraseAfter_of_NoSuccessor s _
        (Or.inr (by simp [State.next_node, hp])), hi0⟩
    | cons c suf =>
      obtain ⟨b, y⟩ := c
      have hne : s.list.size_ ≠ 0 := by rw [hsz]; simp
      obtain ⟨s', m, her, hseg, hsz', _, _⟩ := EraseAfter_head s hc hne
      refine ⟨_, s', _, hadv, her, suf, hseg, ?_⟩
      simp only [List.length_cons] at hsz
      omega
  · have hne : s.list.size_ ≠ 0 := by rw [hsz]; simp
    cases suf0 with
    | nil =>
      obtain ⟨m, _, hr, hm, _, _⟩ := Seg.split hc
      have hm' : m = none := hm
      subst hm'
      simp only at hr
      exact ⟨_, s, _, hadv, EraseAfter_of_NoSuccessor s _
        (Or.inr (by simp [State.next_node, hr])), hi0⟩
    | cons c suf =>
      obtain ⟨b, y⟩ := c
      obtain ⟨s', m, her, hseg, hsz', _, _⟩ := EraseAfter_node s hc hne
      refine ⟨_, s', _, hadv, her, _, hseg, ?_⟩
      simp only [List.length_append, List.length_cons] at hsz ⊢
      omega

theorem Reachable.inv {α : Type} {s : State α} (hr : Reachable s) : Inv s := by
  induction hr with
  | empty h => exact ⟨[], rfl, rfl⟩
  | ofSequence h vs s hs =>
    obtain ⟨s', cs, hcons, hseg, _, hsz⟩ := ofInitializerList_seg h vs
    rw [hs] at hcons
    cases hcons
    exact ⟨cs, hseg, hsz⟩
  | pushFront s v _ ih => exact ih.pushFront v
  | popFront s s' _ hpop ih =>
    obtain ⟨s'', hpop', hi⟩ := ih.popFront
    rw [hpop] at hpop'
    cases hpop'
    exact hi
  | insertAfter s s' k pos it v _ hk hadv hins ih =>
    obtain ⟨pos', s'', it', hadv', hins', hi⟩ := ih.insertAfter k hk v
    rw [hadv] at hadv'
    cases hadv'
    rw [hins] at hins'
    cases hins'
    exact hi
  | eraseAfter s s' k pos it _ hk hadv her ih =>
    obtain ⟨pos', s'', it', hadv', her', hi⟩ := ih.eraseAfter k hk
    rw [hadv] at hadv'
    cases hadv'
    rw [her] at her'
    cases her'
    exact hi
  | clear s s' _ hcl ih =>
    obtain ⟨s'', hcl', hi⟩ := ih.clear
    rw [hcl] at hcl'
    cases hcl'
    exact hi

/-- No operation gets stuck on a state the operations produce: `PopFront` and
`Clear` return, every `k ≤ GetSize()` names a position after `before_begin()`,
and `InsertAfter` and `EraseAfter` return there; the results are states the
operations produce. -/
theorem Reachable.progress {α : Type} {s : State α} (hr : Reachable s) :
    (∃ s', PopFront s = some s' ∧ Reachable s') ∧
    (∃ s', Clear s = some s' ∧ Reachable s') ∧
    ∀ k, k ≤ GetSize s → ∃ pos, advance s k before_begin = some pos ∧
      (∀ v, ∃ s' it, InsertAfter s pos v = some (s', it) ∧ Reachable s') ∧
      (∃ s' it, EraseAfter s pos = some (s', it) ∧ Reachable s') := by
  have hi := hr.inv
  refine ⟨?_, ?_, ?_⟩
  · obtain ⟨s', hpop, _⟩ := hi.popFront
    exact ⟨s', hpop, Reachable.popFront s s' hr hpop⟩
  · obtain ⟨s', hcl, _⟩ := hi.clear
    exact ⟨s', hcl, Reachable.clear s s' hr hcl⟩
  · intro k hk
    obtain ⟨pos, s2, it2, hadv, her, _⟩ := hi.eraseAfter k hk
    refine ⟨pos, hadv, ?_, s2, it2, her, Reachable.eraseAfter s s2 k pos it2 hr hk hadv her⟩
    intro v
    obtain ⟨pos', s1, it1, hadv', hins, _⟩ := hi.insertAfter k hk v
    rw [hadv] at hadv'
    cases hadv'
    exact ⟨s1, it1, hins, Reachable.insertAfter s s1 k pos it1 v hr hk hadv hins⟩

theorem std_equal_seg {α : Type} (eq : α → α → Bool) (s1 s2 : State α) {p q : Option Nat}
    {cs ds : List (Nat × α)} (hc : Seg s1.heap p cs none) (hd : Seg s2.heap q ds none)
    (hlen : cs.length = ds.length) (fuel : Nat) (hf : cs.length ≤ fuel) :
    std_equal eq s1 s2 fuel (NodePtr.ofLink p) NodePtr.null (NodePtr.ofLink q)
      = some (((cs.map Prod.snd).zip (ds.map Prod.snd)).all (fun r => eq r.1 r.2)) := by
  induction cs generalizing p q ds fuel with
  | nil =>
    have hp : p = none := hc
    subst hp
    cases fuel <;> simp [std_equal]
  | cons c cs ih =>
    cases ds with
    | nil => simp at hlen
    | cons d ds =>
      obtain ⟨hp, nx, hr, hrest⟩ := hc
      obtain ⟨hq, nx2, hr2, hrest2⟩ := hd
      subst hp
      subst hq
      cases fuel with
      | zero => simp at hf
      | succ fuel =>
        have hrec := ih hrest hrest2 (by simpa using hlen) fuel (by simpa using hf)
        by_cases he : eq c.2 d.2 = true
        · simp [std_equal, Iterator.deref, Iterator.inc, State.next_node, hr, hr2, he, hrec]
        · simp [std_equal, Iterator.deref, Iterator.inc, State.next_node, hr, hr2, he]

theorem std_lexicographical_compare_seg {α : Type} (lt : α → α → Bool) (s1 s2 : State α)
    {p q : Option Nat} {cs ds : List (Nat × α)}
    (hc : Seg s1.heap p cs none) (hd : Seg s2.heap q ds none)
    (fuel : Nat) (hf : cs.length ≤ fuel) :
    std_lexicographical_compare lt s1 s2 fuel (NodePtr.ofLink p) NodePtr.null
      (NodePtr.ofLink q) NodePtr.null
      = some (lexicographicLess lt (cs.map Prod.snd) (ds.map Prod.snd)) := by
  induction cs generalizing p q ds fuel with
  | nil =>
    have hp : p = none := hc
    subst hp
    cases ds with
    | nil =>
      have hq : q = none := hd
      subst hq
      cases fuel <;> simp [std_lexicographical_compare, lexicographicLess]
    | cons d ds =>
      obtain ⟨hq, _⟩ := hd
      subst hq
      cases fuel <;> simp [std_lexicographical_compare, lexicographicLess]
  | cons c cs ih =>
    obtain ⟨hp, nx, hr, hrest⟩ := hc
    subst hp
    cases ds with
    | nil =>
      have hq : q = none := hd
      subst hq
      cases fuel <;> simp [std_lexicographical_compare, lexicographicLess]
    | cons d ds =>
      obtain ⟨hq, nx2, hr2, hrest2⟩ := hd
      subst hq
      cases fuel with
      | zero => simp at hf
      | succ fuel =>
        have hrec := ih hrest hrest2 fuel (by simpa using hf)
        by_cases h1 : lt c.2 d.2 = true
        · simp [std_lexicographical_compare, lexicographicLess, Iterator.deref,
            State.next_node, hr, hr2, h1]
        · by_cases h2 : lt d.2 c.2 = true
          · simp [std_lexicographical_compare, lexicographicLess, Iterator.deref,
              State.next_node, hr, hr2, h1, h2]
          · simp only [lexicographicLess] at hrec
            simp [std_lexicographical_compare, lexicographicLess, Iterator.deref,
              Iterator.inc, State.next_node, hr, hr2, h1, h2, hrec]

theorem zip_self_mem {α : Type} {l : List α} {p : α × α} (hp : p ∈ l.zip l) : p.1 = p.2 := by
  induction l with
  | nil => simp at hp
  | cons x xs ih =>
    rw [List.zip_cons_cons, List.mem_cons] at hp
    rcases hp with rfl | hp
    · rfl
    · exact ih hp

/-- The sample comparisons of the spec, run on `sampleHeap`: `[1,2,3] == [1,2,3]`
is true, `[1,2,3] == [1,2,2]` is false and `[1,2,3] != [1,2,2]` is true,
`[] == []` is true, `[1,2] < [1,2,3]` is true and `[1,2,3] < [1,2]` is false. -/
theorem comparison_examples :
    operator_eq natEq sampleHeap sampleA sampleB = some true ∧
    operator_eq natEq sampleHeap sampleA sampleC = some false ∧
    operator_ne natEq sampleHeap sampleA sampleC = some true ∧
    operator_eq natEq sampleHeap sampleE sampleF = some true ∧
    operator_lt natLt sampleHeap sampleD sampleA = some true ∧
    operator_lt natLt sampleHeap sampleA sampleD = some false := by
  decide

theorem seg_of_distance {α : Type} (s : State α) (fuel : Nat) (p : Option Nat) (n : Nat)
    (hd : distance s fuel (NodePtr.ofLink p) NodePtr.null = some n) :
    ∃ cs : List (Nat × α), Seg s.heap p cs none ∧ cs.length = n := by
  induction fuel generalizing p n with
  | zero =>
    cases p with
    | none =>
      simp [distance] at hd
      exact ⟨[], rfl, by simp [hd]⟩
    | some a => simp [distance] at hd
  | succ fuel ih =>
    cases p with
    | none =>
      simp [distance] at hd
      exact ⟨[], rfl, by simp [hd]⟩
    | some a =>
      simp only [distance, NodePtr.ofLink_some, Iterator.inc, State.next_node] at hd
      cases hr : s.heap.read a with
      | none => simp [hr] at hd
      | some nd =>
        cases hrec : distance s fuel (NodePtr.ofLink nd.next_node) NodePtr.null with
        | none => simp [hr, hrec] at hd
        | some m =>
          simp [hr, hrec] at hd
          obtain ⟨cs, hseg, hlen⟩ := ih nd.next_node m hrec
          refine ⟨(a, nd.value) :: cs, ⟨rfl, nd.next_node, hr, hseg⟩, ?_⟩
          simp [hlen, hd]

/-- The size invariant as the walk states it gives the chain with `size_`
nodes. -/
theorem Inv_of_countNodes {α : Type} (s : State α) (hinv : countNodes s = some (GetSize s)) :
    Inv s := by
  obtain ⟨cs, hseg, hlen⟩ := seg_of_distance s _ _ _ hinv
  exact ⟨cs, hseg, hlen.symm⟩

theorem Clear_seg {α : Type} (s : State α) {cs : List (Nat × α)}
    (hc : Seg s.heap s.list.head_next_node cs none) (hsz : s.list.size_ = cs.length) :
    ∃ h', Clear s = some ⟨⟨none, 0⟩, h'⟩ ∧ h'.length = s.heap.length := by
  obtain ⟨h', hcl, hlen⟩ := ClearLoop_seg hc
  refine ⟨h', ?_, hlen⟩
  unfold Clear
  rw [hsz]
  exact hcl

theorem Heap.store_new_self {α : Type} (h : Heap α) (v : α) (nx : Option Nat) :
    (h.new v nx).2.store h.length ⟨v, nx⟩ = (h.new v nx).2 := by
  simp [Heap.new, Heap.store]

theorem InsertAfter_head_eq {α : Type} (s : State α) (v : α) :
    InsertAfter s NodePtr.head v
      = some (PushFront s v, NodePtr.node s.heap.length) := by
  have h1 := Heap.read_new_self s.heap v s.list.head_next_node
  have e1 : (s.heap.new v s.list.head_next_node).1 = s.heap.length := rfl
  simp [InsertAfter, State.next_node, State.set_next_node, Heap.setNext, h1, e1,
    Heap.store_new_self, PushFront]

theorem ClearLoop_eq_ClearTurns {α : Type} (n : Nat) (hd : Option Nat) (h : Heap α) :
    ClearLoop n hd h = ClearTurns n ⟨⟨hd, n⟩, h⟩ := by
  induction n generalizing hd h with
  | zero => rfl
  | succ n ih =>
    cases hd with
    | none => simp [ClearLoop, ClearTurns, ClearBody, IsEmpty]
    | some a =>
      cases hr : h.read a with
      | none => simp [ClearLoop, ClearTurns, ClearBody, IsEmpty, hr]
      | some nd => simp [ClearLoop, ClearTurns, ClearBody, IsEmpty, hr, ih]

/-- The member `Clear` is its loop run for `size_` turns. -/
theorem Clear_eq_ClearTurns {α : Type} (s : State α) :
    Clear s = ClearTurns s.list.size_ s :=
  ClearLoop_eq_ClearTurns s.list.size_ s.list.head_next_node s.heap

theorem ClearTurns_seg {α : Type} (k : Nat) (s : State α) (cs : List (Nat × α))
    (hc : Seg s.heap s.list.head_next_node cs none) (hsz : s.list.size_ = cs.length)
    (hk : k ≤ cs.length) :
    ∃ sk, ClearTurns k s = some sk ∧ Seg sk.heap sk.list.head_next_node (cs.drop k) none ∧
      sk.list.size_ + k = cs.length := by
  induction k generalizing s cs with
  | zero => exact ⟨s, rfl, hc, hsz⟩
  | succ k ih =>
    cases cs with
    | nil => simp at hk
    | cons c cs =>
      have hc0 := hc
      obtain ⟨hp, nx, hr, hrest⟩ := hc
      rw [hp] at hc0
      have hne : s.list.size_ ≠ 0 := by rw [hsz]; simp
      have hseg1 : Seg (s.heap.delete c.1) nx cs none :=
        Seg.delete_heap hrest c.1 (Seg.ne_of_mem_cons hc0)
      obtain ⟨sk, hturn, hseg, hsize⟩ :=
        ih ⟨⟨nx, s.list.size_ - 1⟩, s.heap.delete c.1⟩ cs hseg1
          (by show s.list.size_ - 1 = cs.length; rw [hsz]; simp) (by simpa using hk)
      refine ⟨sk, ?_, by simpa using hseg, by simp only [List.length_cons]; omega⟩
      simp [ClearTurns, ClearBody, IsEmpty, hne, hp, hr, hturn]

/-- Dropping the log of `std_equal_log` gives `std_equal`. -/
theorem std_equal_log_fst {α : Type} (eq : α → α → Bool) (s1 s2 : State α) (fuel : Nat)
    (first1 last1 first2 : NodePtr) :
    (std_equal_log eq s1 s2 fuel first1 last1 first2).map Prod.fst
      = std_equal eq s1 s2 fuel first1 last1 first2 := by
  induction fuel generalizing first1 first2 with
  | zero =>
    by_cases h : first1 = last1 <;> simp [std_equal_log, std_equal, h]
  | succ fuel ih =>
    by_cases h : first1 = last1
    · simp [std_equal_log, std_equal, h]
    · simp only [std_equal_log, std_equal, h, if_false]
      cases Iterator.deref s1 first1 with
      | none => rfl
      | some x =>
        cases Iterator.deref s2 first2 with
        | none => rfl
        | some y =>
          by_cases he : eq x y = true
          · cases Iterator.inc s1 first1 with
            | none => simp [he]
            | some n1 =>
              cases Iterator.inc s2 first2 with
              | none => simp [he]
              | some n2 =>
                have := ih n1 n2
                cases hrec : std_equal_log eq s1 s2 fuel n1 last1 n2 with
                | none => rw [hrec] at this; simp [he, hrec, ← this]
                | some r => rw [hrec] at this; simp [he, hrec, ← this]
          · simp [he]

/-- Dropping the log of `operator_eq_log` gives `operator_eq`. -/
theorem operator_eq_log_fst {α : Type} (eq : α → α → Bool) (h : Heap α) (lhs rhs : Ref) :
    (operator_eq_log eq h lhs rhs).map Prod.fst = operator_eq eq h lhs rhs := by
  unfold operator_eq_log operator_eq
  by_cases h1 : lhs.addr = rhs.addr
  · simp [h1]
  · by_cases h2 : GetSize (State.mk lhs.obj h) = GetSize (State.mk rhs.obj h)
    · simp only [h1, h2, if_false, ne_eq, not_true_eq_false]
      exact std_equal_log_fst eq _ _ _ _ _ _
    · simp [h1, h2]

theorem std_equal_log_seg {α : Type} (eq : α → α → Bool) (s1 s2 : State α) {p q : Option Nat}
    {cs ds : List (Nat × α)} (hc : Seg s1.heap p cs none) (hd : Seg s2.heap q ds none)
    (hlen : cs.length = ds.length) (fuel : Nat) (hf : cs.length ≤ fuel) :
    ∃ r log, std_equal_log eq s1 s2 fuel (NodePtr.ofLink p) NodePtr.null (NodePtr.ofLink q)
        = some (r, log) ∧
      ∀ x ∈ log, ∃ d ∈ ds, x = NodePtr.node d.1 := by
  induction cs generalizing p q ds fuel with
  | nil =>
    have hp : p = none := hc
    subst hp
    refine ⟨true, [], ?_, by simp⟩
    cases fuel <;> simp [std_equal_log]
  | cons c cs ih =>
    cases ds with
    | nil => simp at hlen
    | cons d ds =>
      obtain ⟨hp, nx, hr, hrest⟩ := hc
      obtain ⟨hq, nx2, hr2, hrest2⟩ := hd
      subst hp
      subst hq
      cases fuel with
      | zero => simp at hf
      | succ fuel =>
        obtain ⟨r, log, hrec, hlog⟩ :=
          ih hrest hrest2 (by simpa using hlen) fuel (by simpa using hf)
        by_cases he : eq c.2 d.2 = true
        · refine ⟨r, NodePtr.node d.1 :: NodePtr.node d.1 :: log, ?_, ?_⟩
          · simp [std_equal_log, Iterator.deref, Iterator.inc, State.next_node, hr, hr2, he,
              hrec]
          · intro x hx
            rcases List.mem_cons.mp hx with rfl | hx
            · exact ⟨d, List.mem_cons_self _ _, rfl⟩
            · rcases List.mem_cons.mp hx with rfl | hx
              · exact ⟨d, List.mem_cons_self _ _, rfl⟩
              · obtain ⟨d', hd', hxd⟩ := hlog x hx
                exact ⟨d', List.mem_cons_of_mem _ hd', hxd⟩
        · refine ⟨false, [NodePtr.node d.1], ?_, ?_⟩
          · simp [std_equal_log, Iterator.deref, Iterator.inc, State.next_node, hr, hr2, he]
          · intro x hx
            rcases List.mem_cons.mp hx with rfl | hx
            · exact ⟨d, List.mem_cons_self _ _, rfl⟩
            · cases hx

/-- A node of the chain is the position some number of advances after
`begin()`, and `*` and `++` succeed on it. -/
theorem Seg.position_of_mem {α : Type} (s : State α) {cs : List (Nat × α)}
    (hc : Seg s.heap s.list.head_next_node cs none) {d : Nat × α} (hd : d ∈ cs) :
    ∃ k, k < cs.length ∧ advance s k (begin s) = some (NodePtr.node d.1) ∧
      (Iterator.deref s (NodePtr.node d.1)).isSome = true ∧
      (Iterator.inc s (NodePtr.node d.1)).isSome = true := by
  obtain ⟨k, hk, hget⟩ := List.getElem_of_mem hd
  obtain ⟨q, hadv, _, h2⟩ := advance_link s hc k (Nat.le_of_lt hk)
  have hdrop : cs.drop k = cs[k] :: cs.drop (k + 1) := List.drop_eq_getElem_cons hk
  rw [hdrop, hget] at h2
  obtain ⟨hq, nx, hr, _⟩ := h2
  subst hq
  refine ⟨k, hk, hadv, ?_, ?_⟩
  · simp [Iterator.deref, hr]
  · simp [Iterator.inc, State.next_node, hr]

theorem lexicographicLess_nil_left {α : Type} (lt : α → α → Bool) (lb : List α) :
    lexicographicLess lt [] lb = decide (0 < lb.length) := by
  simp [lexicographicLess]

theorem lexicographicLess_nil_right {α : Type} (lt : α → α → Bool) (la : List α) :
    lexicographicLess lt la [] = false := by
  simp [lexicographicLess]

theorem lexicographicLess_cons {α : Type} (lt : α → α → Bool) (x y : α) (xs ys : List α) :
    lexicographicLess lt (x :: xs) (y :: ys)
      = if lt x y = true then true
        else if lt y x = true then false else lexicographicLess lt xs ys := by
  by_cases h1 : lt x y = true
  · simp [lexicographicLess, List.find?, h1]
  · by_cases h2 : lt y x = true
    · simp [lexicographicLess, List.find?, h1, h2]
    · simp [lexicographicLess, List.find?, h1, h2, List.zip]

theorem SameSequence_iff_eq {α : Type} (eq : α → α → Bool)
    (heq : ∀ x y, eq x y = true ↔ x = y) (la lb : List α) :
    SameSequence eq la lb ↔ la = lb := by
  induction la generalizing lb with
  | nil =>
    cases lb with
    | nil => simp [SameSequence]
    | cons y ys => simp [SameSequence]
  | cons x xs ih =>
    cases lb with
    | nil => simp [SameSequence]
    | cons y ys =>
      have := ih ys
      simp only [SameSequence, heq] at this ⊢
      simp only [List.length_cons, List.zip_cons_cons, List.mem_cons, forall_eq_or_imp,
        Nat.add_right_cancel_iff, List.cons.injEq, heq]
      constructor
      · rintro ⟨hl, hxy, hrest⟩
        exact ⟨hxy, this.mp ⟨hl, hrest⟩⟩
      · rintro ⟨hxy, hrest⟩
        obtain ⟨hl, hr⟩ := this.mpr hrest
        exact ⟨hl, hxy, hr⟩

/-- Under a strict total order on the elements exactly one of `la < lb`,
`la = lb`, `lb < la` holds for the lexicographic comparison. -/
theorem lexicographicLess_trichotomy {α : Type} (lt : α → α → Bool)
    (hirr : ∀ x, lt x x = false)
    (htrans : ∀ x y z, lt x y = true → lt y z = true → lt x z = true)
    (htot : ∀ x y, lt x y = true ∨ x = y ∨ lt y x = true) (la lb : List α) :
    (lexicographicLess lt la lb = true ∨ la = lb ∨ lexicographicLess lt lb la = true) ∧
    ¬ (lexicographicLess lt la lb = true ∧ la = lb) ∧
    ¬ (lexicographicLess lt la lb = true ∧ lexicographicLess lt lb la = true) ∧
    ¬ (la = lb ∧ lexicographicLess lt lb la = true) := by
  have hasym : ∀ x y, lt x y = true → lt y x = true → False := by
    intro x y h1 h2
    have := htrans x y x h1 h2
    rw [hirr x] at this
    cases this
  induction la generalizing lb with
  | nil =>
    cases lb with
    | nil => simp [lexicographicLess_nil_left]
    | cons y ys => simp [lexicographicLess_nil_left, lexicographicLess_nil_right]
  | cons x xs ih =>
    cases lb with
    | nil => simp [lexicographicLess_nil_left, lexicographicLess_nil_right]
    | cons y ys =>
      obtain ⟨i1, i2, i3, i4⟩ := ih ys
      rw [lexicographicLess_cons lt x y, lexicographicLess_cons lt y x]
      rcases htot x y with hxy | hxy | hxy
      · have hyx : ¬ lt y x = true := fun h => hasym x y hxy h
        have hne : x ≠ y := fun e => by rw [e, hirr y] at hxy; cases hxy
        simp [hxy, hyx, hne]
      · subst hxy
        simp only [hirr x, Bool.false_eq_true, if_false, List.cons.injEq, true_and]
        exact ⟨i1, i2, i3, i4⟩
      · have hyx : ¬ lt x y = true := fun h => hasym x y h hxy
        have hne : x ≠ y := fun e => by rw [e, hirr y] at hxy; cases hxy
        simp [hxy, hyx, hne]

theorem operator_eq_of_seg {α : Type} (eq : α → α → Bool) (h : Heap α) (a b : Ref)
    {cs ds : List (Nat × α)}
    (hrefl : ∀ x, eq x x = true) (hid : a.addr = b.addr → a.obj = b.obj)
    (hc : Seg h a.obj.head_next_node cs none) (hd : Seg h b.obj.head_next_node ds none)
    (hsa : a.obj.size_ = cs.length) (hsb : b.obj.size_ = ds.length) :
    ∃ r, operator_eq eq h a b = some r ∧
      (r = true ↔ SameSequence eq (cs.map Prod.snd) (ds.map Prod.snd)) := by
  by_cases hadr : a.addr = b.addr
  · refine ⟨true, by simp [operator_eq, hadr], ?_⟩
    have hobj := hid hadr
    rw [hobj] at hc
    have hcd := Seg.unique hc hd
    subst hcd
    simp only [true_iff]
    exact ⟨rfl, fun p hp => by rw [zip_self_mem hp]; exact hrefl _⟩
  · by_cases hsz : a.obj.size_ = b.obj.size_
    · have hlen : cs.length = ds.length := by omega
      have hrun := std_equal_seg eq ⟨a.obj, h⟩ ⟨b.obj, h⟩ hc hd hlen h.length
        (Seg.length_le hc)
      refine ⟨_, by simpa [operator_eq, hadr, GetSize, hsz, begin, end_] using hrun, ?_⟩
      rw [List.all_eq_true]
      simp [SameSequence, hlen]
    · refine ⟨false, by simp [operator_eq, hadr, GetSize, hsz], ?_⟩
      have hlen : cs.length ≠ ds.length := by omega
      simp [SameSequence, hlen]

theorem Seg.of_read_eq {α : Type} {h h' : Heap α} {p q : Option Nat} {ds : List (Nat × α)}
    (hs : Seg h p ds q) (hr : ∀ d ∈ ds, h'.read d.1 = h.read d.1) : Seg h' p ds q := by
  induction ds generalizing p with
  | nil => exact hs
  | cons d ds ih =>
    obtain ⟨hp, nx, hrd, hrest⟩ := hs
    refine ⟨hp, nx, ?_, ih hrest (fun e he => hr e (List.mem_cons_of_mem _ he))⟩
    rw [hr d (List.mem_cons_self _ _)]
    exact hrd

theorem Frame.seg {α : Type} {cs ds : List (Nat × α)} {h h' : Heap α} {p q : Option Nat}
    (hf : Frame cs h h') (hs : Seg h p ds q) (hdisj : ∀ c ∈ cs, ∀ d ∈ ds, c.1 ≠ d.1) :
    Seg h' p ds q :=
  Seg.of_read_eq hs (fun d hd =>
    hf.2 d.1 (Seg.addr_lt hs d hd) (fun c hc => hdisj c hc d hd))

theorem Frame.refl {α : Type} (cs : List (Nat × α)) (h : Heap α) : Frame cs h h :=
  ⟨Nat.le_refl _, fun _ _ _ => rfl⟩

theorem PopFront_eq {α : Type} (s : State α) {b : Nat} {nd : Node α}
    (hsz : s.list.size_ ≠ 0) (hp : s.list.head_next_node = some b)
    (hr : s.heap.read b = some nd) :
    PopFront s = some ⟨⟨nd.next_node, s.list.size_ - 1⟩, s.heap.delete b⟩ := by
  simp [PopFront, IsEmpty, hsz, hp, hr]

theorem InsertAfter_node_eq {α : Type} (s : State α) (v : α) {a : Nat} {x : α}
    {m : Option Nat} (hr : s.heap.read a = some ⟨x, m⟩) :
    InsertAfter s (NodePtr.node a) v
      = some (⟨⟨s.list.head_next_node, s.list.size_ + 1⟩,
          ((s.heap.new v m).2.store a ⟨x, some s.heap.length⟩).store s.heap.length ⟨v, m⟩⟩,
        NodePtr.node s.heap.length) := by
  have ha : a < s.heap.length := Heap.read_lt_length hr
  have hne : s.heap.length ≠ a := Nat.ne_of_gt ha
  have hr1 : (s.heap.new v m).2.read a = some ⟨x, m⟩ := by
    rw [Heap.read_new_old _ _ _ ha]; exact hr
  have hrn1 : (s.heap.new v m).2.read s.heap.length = some ⟨v, m⟩ :=
    Heap.read_new_self s.heap v m
  have hrn2 : ((s.heap.new v m).2.store a ⟨x, some s.heap.length⟩).read s.heap.length
      = some ⟨v, m⟩ := by
    rw [Heap.read_store_ne _ _ (Ne.symm hne)]; exact hrn1
  have hra2 : ((s.heap.new v m).2.store a ⟨x, some s.heap.length⟩).read a
      = some ⟨x, some s.heap.length⟩ :=
    Heap.read_store_self _ _ (by rw [Heap.length_new]; omega)
  have hra3 : (((s.heap.new v m).2.store a ⟨x, some s.heap.length⟩).store s.heap.length
      ⟨v, m⟩).read a = some ⟨x, some s.heap.length⟩ := by
    rw [Heap.read_store_ne _ _ hne]; exact hra2
  have e1 : (s.heap.new v m).1 = s.heap.length := rfl
  simp [InsertAfter, State.next_node, State.set_next_node, Heap.setNext, hr, hr1, e1,
    hra2, hrn2, hra3]

theorem EraseAfter_head_eq {α : Type} (s : State α) {b : Nat} {nd : Node α}
    (hsz : s.list.size_ ≠ 0) (hp : s.list.head_next_node = some b)
    (hr : s.heap.read b = some nd) :
    EraseAfter s NodePtr.head
      = some (⟨⟨nd.next_node, s.list.size_ - 1⟩, s.heap.delete b⟩,
        NodePtr.ofLink nd.next_node) := by
  simp [EraseAfter, IsEmpty, hsz, State.next_node, State.set_next_node, hp, hr]

theorem EraseAfter_node_eq {α : Type} (s : State α) {a b : Nat} {x : α} {nd : Node α}
    (hsz : s.list.size_ ≠ 0) (hra : s.heap.read a = some ⟨x, some b⟩)
    (hrb : s.heap.read b = some nd) (hab : a ≠ b) :
    EraseAfter s (NodePtr.node a)
      = some (⟨⟨s.list.head_next_node, s.list.size_ - 1⟩,
          (s.heap.delete b).store a ⟨x, nd.next_node⟩⟩, NodePtr.ofLink nd.next_node) := by
  have ha : a < s.heap.length := Heap.read_lt_length hra
  have hra1 : (s.heap.delete b).read a = some ⟨x, some b⟩ := by
    rw [Heap.read_delete_ne _ (Ne.symm hab)]; exact hra
  have hra2 : ((s.heap.delete b).store a ⟨x, nd.next_node⟩).read a
      = some ⟨x, nd.next_node⟩ :=
    Heap.read_store_self _ _ (by rw [Heap.length_delete]; exact ha)
  simp [EraseAfter, IsEmpty, hsz, State.next_node, State.set_next_node, Heap.setNext,
    hra, hrb, hra1, hra2]

theorem Frame.new {α : Type} (cs : List (Nat × α)) (h : Heap α) (v : α) (nx : Option Nat) :
    Frame cs h (h.new v nx).2 :=
  ⟨by rw [Heap.length_new]; omega, fun b hb _ => Heap.read_new_old h v nx hb⟩

theorem Frame.delete {α : Type} {cs : List (Nat × α)} {h h' : Heap α} (hf : Frame cs h h')
    {a : Nat} (ha : (∃ c ∈ cs, c.1 = a) ∨ h.length ≤ a) : Frame cs h (h'.delete a) := by
  refine ⟨by rw [Heap.length_delete]; exact hf.1, fun b hb hnot => ?_⟩
  have hab : a ≠ b := by
    rcases ha with ⟨c, hc, rfl⟩ | ha
    · exact hnot c hc
    · omega
  rw [Heap.read_delete_ne _ hab]
  exact hf.2 b hb hnot

theorem Frame.store {α : Type} {cs : List (Nat × α)} {h h' : Heap α} (hf : Frame cs h h')
    {a : Nat} (n : Node α) (ha : (∃ c ∈ cs, c.1 = a) ∨ h.length ≤ a) :
    Frame cs h (h'.store a n) := by
  refine ⟨by rw [Heap.length_store]; exact hf.1, fun b hb hnot => ?_⟩
  have hab : a ≠ b := by
    rcases ha with ⟨c, hc, rfl⟩ | ha
    · exact hnot c hc
    · omega
  rw [Heap.read_store_ne _ _ hab]
  exact hf.2 b hb hnot

theorem ClearLoop_frame {α : Type} {h : Heap α} {p : Option Nat} {cs : List (Nat × α)}
    (hc : Seg h p cs none) :
    ∃ h', ClearLoop cs.length p h = some ⟨⟨none, 0⟩, h'⟩ ∧ h'.length = h.length ∧
      ∀ b, (∀ c ∈ cs, c.1 ≠ b) → h'.read b = h.read b := by
  induction cs generalizing p h with
  | nil =>
    have hp : p = none := hc
    subst hp
    exact ⟨h, rfl, rfl, fun _ _ => rfl⟩
  | cons c cs ih =>
    have hc0 := hc
    obtain ⟨hp, nx, hr, hrest⟩ := hc
    subst hp
    obtain ⟨h', hcl, hlen, hfr⟩ := ih (Seg.delete_heap hrest c.1 (Seg.ne_of_mem_cons hc0))
    refine ⟨h', ?_, by rw [hlen, Heap.length_delete], ?_⟩
    · simp [ClearLoop, hr, hcl]
    · intro b hb
      rw [hfr b (fun d hd => hb d (List.mem_cons_of_mem _ hd)),
        Heap.read_delete_ne _ (hb c (List.mem_cons_self _ _))]

/-- What a mutation does to the free store: the list keeps a valid chain and
size, the free store only grows and only changes at nodes of the old chain, and
the nodes of the new chain are old ones or newly allocated. -/
theorem Mutates.frame {α : Type} {s s' : State α} (hm : Mutates s s') {cs : List (Nat × α)}
    (hc : Seg s.heap s.list.head_next_node cs none) (hsz : s.list.size_ = cs.length) :
    ∃ cs', Seg s'.heap s'.list.head_next_node cs' none ∧ s'.list.size_ = cs'.length ∧
      Frame cs s.heap s'.heap ∧
      ∀ c ∈ cs', (∃ d ∈ cs, d.1 = c.1) ∨ s.heap.length ≤ c.1 := by
  have hpush : ∀ v, ∃ cs', Seg (PushFront s v).heap (PushFront s v).list.head_next_node cs' none ∧
      (PushFront s v).list.size_ = cs'.length ∧ Frame cs s.heap (PushFront s v).heap ∧
      ∀ c ∈ cs', (∃ d ∈ cs, d.1 = c.1) ∨ s.heap.length ≤ c.1 := by
    intro v
    refine ⟨_, PushFront_seg s v hc, ?_, Frame.new cs s.heap v _, ?_⟩
    · show s.list.size_ + 1 = cs.length + 1
      rw [hsz]
    · intro c hcm
      rcases List.mem_cons.mp hcm with rfl | hcm
      · exact Or.inr (Nat.le_refl _)
      · exact Or.inl ⟨c, hcm, rfl⟩
  have hsame : ∃ cs', Seg s.heap s.list.head_next_node cs' none ∧
      s.list.size_ = cs'.length ∧ Frame cs s.heap s.heap ∧
      ∀ c ∈ cs', (∃ d ∈ cs, d.1 = c.1) ∨ s.heap.length ≤ c.1 :=
    ⟨cs, hc, hsz, Frame.refl cs s.heap, fun c hcm => Or.inl ⟨c, hcm, rfl⟩⟩
  cases hm with
  | pushFront v => exact hpush v
  | popFront _ hpop =>
    cases cs with
    | nil =>
      have h0 : s.list.size_ = 0 := hsz
      have : PopFront s = some s := by simp [PopFront, IsEmpty, h0]
      rw [this] at hpop
      cases hpop
      exact hsame
    | cons c rest =>
      have hc0 := hc
      obtain ⟨hp, nx, hr, hrest⟩ := hc
      have hne : s.list.size_ ≠ 0 := by rw [hsz]; simp
      rw [PopFront_eq s hne hp hr] at hpop
      cases hpop
      rw [hp] at hc0
      refine ⟨rest, Seg.delete_heap hrest c.1 (Seg.ne_of_mem_cons hc0), ?_,
        Frame.delete (Frame.refl _ _) (Or.inl ⟨c, List.mem_cons_self _ _, rfl⟩),
        fun d hd => Or.inl ⟨d, List.mem_cons_of_mem _ hd, rfl⟩⟩
      show s.list.size_ - 1 = rest.length
      rw [hsz]; simp
  | insertAfter _ k pos it v hk hadv hins =>
    have hk' : k ≤ cs.length := by rw [← hsz]; exact hk
    rcases advance_before_begin s hc k hk' with ⟨_, hadv'⟩ | ⟨a, x, pre, suf, hadv', hcs, _⟩
    · rw [hadv] at hadv'
      cases hadv'
      rw [InsertAfter_head_eq] at hins
      cases hins
      exact hpush v
    · rw [hadv] at hadv'
      cases hadv'
      subst hcs
      obtain ⟨s'', m, hins', hseg, hsz', hra, _, _⟩ := InsertAfter_node s v hc
      have hE := (InsertAfter_node_eq s v hra).symm.trans hins'
      have hE' := (Prod.mk.inj (Option.some.inj hE)).1
      rw [hins'] at hins
      cases hins
      refine ⟨_, hseg, ?_, ?_, ?_⟩
      · rw [hsz', hsz]; simp; omega
      · rw [← hE']
        exact Frame.store (Frame.store (Frame.new _ _ _ _) _
          (Or.inl ⟨(a, x), by simp, rfl⟩)) _ (Or.inr (Nat.le_refl _))
      · intro c hcm
        simp only [List.mem_append, List.mem_cons] at hcm
        rcases hcm with hcm | rfl | rfl | hcm
        · exact Or.inl ⟨c, by simp [hcm], rfl⟩
        · exact Or.inl ⟨(a, x), by simp, rfl⟩
        · exact Or.inr (Nat.le_refl _)
        · exact Or.inl ⟨c, by simp [hcm], rfl⟩
  | eraseAfter _ k pos it hk hadv her =>
    have hk' : k ≤ cs.length := by rw [← hsz]; exact hk
    rcases advance_before_begin s hc k hk' with ⟨_, hadv'⟩ | ⟨a, x, pre, suf0, hadv', hcs, _⟩
    · rw [hadv] at hadv'
      cases hadv'
      cases cs with
      | nil =>
        have hp : s.list.head_next_node = none := hc
        rw [EraseAfter_of_NoSuccessor s _ (Or.inr (by simp [State.next_node, hp]))] at her
        cases her
        exact hsame
      | cons c suf =>
        obtain ⟨b, y⟩ := c
        have hne : s.list.size_ ≠ 0 := by rw [hsz]; simp
        obtain ⟨s'', m, her', hseg, hsz', _, _⟩ := EraseAfter_head s hc hne
        obtain ⟨hp, nx, hr, _⟩ := hc
        have hE := (EraseAfter_head_eq s hne hp hr).symm.trans her'
        have hE' := (Prod.mk.inj (Option.some.inj hE)).1
        rw [her'] at her
        cases her
        refine ⟨suf, hseg, ?_, ?_, fun d hd => Or.inl ⟨d, List.mem_cons_of_mem _ hd, rfl⟩⟩
        · simp only [List.length_cons] at hsz
          omega
        · rw [← hE']
          exact Frame.delete (Frame.refl _ _) (Or.inl ⟨(b, y), List.mem_cons_self _ _, rfl⟩)
    · rw [hadv] at hadv'
      cases hadv'
      subst hcs
      have hne : s.list.size_ ≠ 0 := by rw [hsz]; simp
      cases suf0 with
      | nil =>
        obtain ⟨m, _, hr, hm, _, _⟩ := Seg.split hc
        have hm' : m = none := hm
        subst hm'
        simp only at hr
        rw [EraseAfter_of_NoSuccessor s _ (Or.inr (by simp [State.next_node, hr]))] at her
        cases her
        exact hsame
      | cons c suf =>
        obtain ⟨b, y⟩ := c
        obtain ⟨s'', m, her', hseg, hsz', _, _⟩ := EraseAfter_node s hc hne
        obtain ⟨m0, _, hra, hsuf0, _, hns⟩ := Seg.split hc
        obtain ⟨hm0, nx, hrb, _⟩ := hsuf0
        simp only at hm0 hra hrb hns
        subst hm0
        have hab : a ≠ b := fun e => hns (b, y) (List.mem_cons_self _ _) e.symm
        have hE := (EraseAfter_node_eq s hne hra hrb hab).symm.trans her'
        have hE' := (Prod.mk.inj (Option.some.inj hE)).1
        rw [her'] at her
        cases her
        refine ⟨_, hseg, ?_, ?_, ?_⟩
        · simp only [List.length_append, List.length_cons] at hsz ⊢
          omega
        · rw [← hE']
          exact Frame.store (Frame.delete (Frame.refl _ _)
            (Or.inl ⟨(b, y), by simp, rfl⟩)) _ (Or.inl ⟨(a, x), by simp, rfl⟩)
        · intro c hcm
          simp only [List.mem_append, List.mem_cons] at hcm
          rcases hcm with hcm | rfl | hcm
          · exact Or.inl ⟨c, by simp [hcm], rfl⟩
          · exact Or.inl ⟨(a, x), by simp, rfl⟩
          · exact Or.inl ⟨c, by simp [hcm], rfl⟩
  | clear _ hcl =>
    obtain ⟨h', hcl', hlen, hfr⟩ := ClearLoop_frame hc
    have : Clear s = some ⟨⟨none, 0⟩, h'⟩ := by
      unfold Clear
      rw [hsz]
      exact hcl'
    rw [this] at hcl
    cases hcl
    exact ⟨[], rfl, rfl, ⟨Nat.le_of_eq hlen.symm, fun b _ hb => hfr b hb⟩,
      fun c hcm => by cases hcm⟩

theorem Independent.symm {α : Type} {a b : SingleLinkedList} {h : Heap α}
    (hi : Independent a b h) : Independent b a h := by
  obtain ⟨cs, ds, hc, hsa, hd, hsb, hdisj⟩ := hi
  exact ⟨ds, cs, hd, hsb, hc, hsa, fun d hd' c hc' e => hdisj c hc' d hd' e.symm⟩

theorem Independent.has_elements {α : Type} {a b : SingleLinkedList} {h : Heap α}
    (hi : Independent a b h) :
    ∃ la lb, elements ⟨a, h⟩ = some la ∧ elements ⟨b, h⟩ = some lb := by
  obtain ⟨cs, ds, hc, _, hd, _, _⟩ := hi
  exact ⟨_, _, (elements_eq_some_iff ⟨a, h⟩ _).mpr ⟨cs, hc, rfl⟩,
    (elements_eq_some_iff ⟨b, h⟩ _).mpr ⟨ds, hd, rfl⟩⟩

/-- A mutation of one of two independent lists leaves the element sequence of
the other as it was, and the two lists stay independent. -/
theorem Independent.mutate_left {α : Type} {a b a' : SingleLinkedList} {h h' : Heap α}
    (hi : Independent a b h) (hm : Mutates ⟨a, h⟩ ⟨a', h'⟩) :
    Independent a' b h' ∧ elements ⟨b, h'⟩ = elements ⟨b, h⟩ := by
  obtain ⟨cs, ds, hc, hsa, hd, hsb, hdisj⟩ := hi
  obtain ⟨cs', hc', hsa', hfr, hmem⟩ := hm.frame hc hsa
  simp only at hc' hsa' hfr hmem
  have hd' : Seg h' b.head_next_node ds none := hfr.seg hd hdisj
  refine ⟨⟨cs', ds, hc', hsa', hd', hsb, ?_⟩, ?_⟩
  · intro c hcm d hdm e
    rcases hmem c hcm with ⟨c0, hc0, hce⟩ | hge
    · exact hdisj c0 hc0 d hdm (hce.trans e)
    · have := Seg.addr_lt hd d hdm
      omega
  · rw [(elements_eq_some_iff ⟨b, h'⟩ _).mpr ⟨ds, hd', rfl⟩,
      (elements_eq_some_iff ⟨b, h⟩ _).mpr ⟨ds, hd, rfl⟩]

theorem Independent.evolves {α : Type} {t t' : Pair α} (he : Evolves t t')
    (hi : Independent t.a t.b t.heap) : Independent t'.a t'.b t'.heap := by
  induction he with
  | refl => exact hi
  | left t' a' h' _ hm ih => exact (ih.mutate_left hm).1
  | right t' b' h' _ hm ih => exact (ih.symm.mutate_left hm).1.symm

/-- The loop of `Assign` over another list's iterators: the scratch list grows
at its tail by one new node per node of the source, with the same values in the
same order, and no node below the address `n0` is written. -/
theorem AssignListLoop_seg {α : Type} (other : SingleLinkedList) (n0 : Nat)
    (rest : List (Nat × α)) (p : Option Nat) (tmp : State α) (last : NodePtr)
    (ts : List (Nat × α)) (fuel : Nat) (hfuel : rest.length ≤ fuel)
    (hrest : Seg tmp.heap p rest none)
    (hts : Seg tmp.heap tmp.list.head_next_node ts none)
    (hn0 : n0 ≤ tmp.heap.length)
    (hrestlt : ∀ c ∈ rest, c.1 < n0)
    (htsge : ∀ t ∈ ts, n0 ≤ t.1)
    (hlast : (ts = [] ∧ last = NodePtr.head) ∨
      (∃ pre a x, ts = pre ++ [(a, x)] ∧ last = NodePtr.node a)) :
    ∃ tmp' ds, AssignListLoop other fuel (NodePtr.ofLink p) NodePtr.null tmp last = some tmp' ∧
      Seg tmp'.heap tmp'.list.head_next_node (ts ++ ds) none ∧
      ds.map Prod.snd = rest.map Prod.snd ∧
      tmp'.list.size_ = tmp.list.size_ + rest.length ∧
      tmp.heap.length ≤ tmp'.heap.length ∧
      (∀ b, b < n0 → tmp'.heap.read b = tmp.heap.read b) ∧
      (∀ d ∈ ds, n0 ≤ d.1) := by
  induction rest generalizing p tmp last ts fuel with
  | nil =>
    have hp : p = none := hrest
    subst hp
    refine ⟨tmp, [], ?_, by simpa using hts, rfl, rfl, Nat.le_refl _, fun _ _ => rfl,
      fun d hd => by cases hd⟩
    cases fuel <;> simp [AssignListLoop]
  | cons c rest ih =>
    obtain ⟨hp, nx, hr, hrest'⟩ := hrest
    subst hp
    cases fuel with
    | zero => simp at hfuel
    | succ fuel =>
      have hfuel' : rest.length ≤ fuel := by simpa using hfuel
      have hc0 : c.1 < n0 := hrestlt c (List.mem_cons_self _ _)
      have hcn : c.1 < tmp.heap.length := by omega
      have hrestlt' : ∀ d ∈ rest, d.1 < n0 := fun d hd => hrestlt d (List.mem_cons_of_mem _ hd)
      have hn1 := Heap.read_new_self tmp.heap c.2 none
      have e1 : (tmp.heap.new c.2 none).1 = tmp.heap.length := rfl
      rcases hlast with ⟨rfl, rfl⟩ | ⟨pre, a, y, rfl, rfl⟩
      · have hrc : (tmp.heap.new c.2 none).2.read c.1 = some ⟨c.2, nx⟩ := by
          rw [Heap.read_new_old _ _ _ hcn]; exact hr
        obtain ⟨tmp', ds, hloop, hres, hmap, hsz, hlen, hrd, hge⟩ :=
          ih nx ⟨⟨some tmp.heap.length, tmp.list.size_ + 1⟩, (tmp.heap.new c.2 none).2⟩
            (NodePtr.node tmp.heap.length) [(tmp.heap.length, c.2)] fuel hfuel'
            (Seg.new_heap hrest' _ _) ⟨rfl, none, hn1, rfl⟩
            (by show n0 ≤ (tmp.heap.new c.2 none).2.length; rw [Heap.length_new]; omega)
            hrestlt'
            (fun t ht => by
              rcases List.mem_singleton.mp ht with rfl
              exact hn0)
            (Or.inr ⟨[], _, _, rfl, rfl⟩)
        refine ⟨tmp', (tmp.heap.length, c.2) :: ds, ?_, by simpa using hres, by simp [hmap],
          ?_, ?_, ?_, ?_⟩
        · simpa [AssignListLoop, Iterator.deref, Iterator.inc, State.next_node,
            State.set_next_node, hr, hrc, e1] using hloop
        · simp only [List.length_cons]
          simp only at hsz
          omega
        · have : (tmp.heap.new c.2 none).2.length = tmp.heap.length + 1 := Heap.length_new _ _ _
          simp only at hlen
          omega
        · intro b hb
          rw [hrd b hb]
          exact Heap.read_new_old _ _ _ (by omega)
        · intro d hd
          rcases List.mem_cons.mp hd with rfl | hd
          · exact hn0
          · exact hge d hd
      · obtain ⟨m, hpre, hra, hm, hnp, _⟩ := Seg.split hts
        have hm' : m = none := hm
        subst hm'
        simp only at hpre hra hnp
        have ha : a < tmp.heap.length := Heap.read_lt_length hra
        have hage : n0 ≤ a := htsge (a, y) (by simp)
        have hac : a ≠ c.1 := by omega
        have hra1 : (tmp.heap.new c.2 none).2.read a = some ⟨y, none⟩ := by
          rw [Heap.read_new_old _ _ _ ha]; exact hra
        have hra2 : ((tmp.heap.new c.2 none).2.store a ⟨y, some tmp.heap.length⟩).read a
            = some ⟨y, some tmp.heap.length⟩ :=
          Heap.read_store_self _ _ (by rw [Heap.length_new]; omega)
        have hn2 : ((tmp.heap.new c.2 none).2.store a ⟨y, some tmp.heap.length⟩).read
            tmp.heap.length = some ⟨c.2, none⟩ := by
          rw [Heap.read_store_ne _ _ (Nat.ne_of_lt ha)]; exact hn1
        have hrc : ((tmp.heap.new c.2 none).2.store a ⟨y, some tmp.heap.length⟩).read c.1
            = some ⟨c.2, nx⟩ := by
          rw [Heap.read_store_ne _ _ hac, Heap.read_new_old _ _ _ hcn]; exact hr
        have hseg : Seg ((tmp.heap.new c.2 none).2.store a ⟨y, some tmp.heap.length⟩)
            tmp.list.head_next_node ((pre ++ [(a, y)]) ++ [(tmp.heap.length, c.2)]) none := by
          apply Seg.append_iff.mpr
          refine ⟨some tmp.heap.length, ?_, rfl, none, hn2, rfl⟩
          apply Seg.append_iff.mpr
          exact ⟨some a, Seg.store_heap (Seg.new_heap hpre _ none) _ _ hnp,
            rfl, some tmp.heap.length, hra2, rfl⟩
        have hrest2 : Seg ((tmp.heap.new c.2 none).2.store a ⟨y, some tmp.heap.length⟩)
            nx rest none :=
          Seg.store_heap (Seg.new_heap hrest' _ none) _ _ (fun d hd => by
            have := hrestlt' d hd
            omega)
        obtain ⟨tmp', ds, hloop, hres, hmap, hsz, hlen, hrd, hge⟩ :=
          ih nx ⟨⟨tmp.list.head_next_node, tmp.list.size_ + 1⟩,
              (tmp.heap.new c.2 none).2.store a ⟨y, some tmp.heap.length⟩⟩
            (NodePtr.node tmp.heap.length) _ fuel hfuel' hrest2 hseg
            (by
              show n0 ≤ ((tmp.heap.new c.2 none).2.store a ⟨y, some tmp.heap.length⟩).length
              rw [Heap.length_store, Heap.length_new]; omega)
            hrestlt'
            (fun t ht => by
              rcases List.mem_append.mp ht with ht | ht
              · exact htsge t ht
              · rcases List.mem_singleton.mp ht with rfl
                exact hn0)
            (Or.inr ⟨_, _, _, rfl, rfl⟩)
        refine ⟨tmp', (tmp.heap.length, c.2) :: ds, ?_, by simpa using hres, by simp [hmap],
          ?_, ?_, ?_, ?_⟩
        · simpa [AssignListLoop, Iterator.deref, Iterator.inc, State.next_node,
            State.set_next_node, Heap.setNext, hr, hra1, hrc, e1] using hloop
        · simp only [List.length_cons]
          simp only at hsz
          omega
        · have : ((tmp.heap.new c.2 none).2.store a ⟨y, some tmp.heap.length⟩).length
              = tmp.heap.length + 1 := by rw [Heap.length_store, Heap.length_new]
          simp only at hlen
          omega
        · intro b hb
          rw [hrd b hb]
          show ((tmp.heap.new c.2 none).2.store a ⟨y, some tmp.heap.length⟩).read b = _
          rw [Heap.read_store_ne _ _ (by omega), Heap.read_new_old _ _ _ (by omega)]
        · intro d hd
          rcases List.mem_cons.mp hd with rfl | hd
          · exact hn0
          · exact hge d hd

/-- The copy constructor returns a list with a chain of new nodes that holds
the values of the source in order; no node that was there before is written. -/
theorem copy_construct_seg {α : Type} (h : Heap α) (other : SingleLinkedList)
    {cs : List (Nat × α)} (hc : Seg h other.head_next_node cs none) :
    ∃ sb ds, copy_construct h other = some sb ∧
      Seg sb.heap sb.list.head_next_node ds none ∧
      ds.map Prod.snd = cs.map Prod.snd ∧ sb.list.size_ = ds.length ∧
      h.length ≤ sb.heap.length ∧
      (∀ b, b < h.length → sb.heap.read b = h.read b) ∧
      (∀ d ∈ ds, h.length ≤ d.1) := by
  obtain ⟨tmp, ds, hloop, hseg, hmap, hsz, hlen, hrd, hge⟩ :=
    AssignListLoop_seg other h.length cs other.head_next_node (State.empty h) NodePtr.head []
      h.length (Seg.length_le hc) hc rfl (Nat.le_refl _) (Seg.addr_lt hc)
      (fun t ht => by cases ht) (Or.inl ⟨rfl, rfl⟩)
  refine ⟨⟨tmp.list, tmp.heap⟩, ds, ?_, by simpa using hseg, hmap, ?_, hlen, hrd, hge⟩
  · have hloop' : AssignListLoop other h.length (NodePtr.ofLink other.head_next_node)
        NodePtr.null (State.empty h) NodePtr.head = some tmp := hloop
    simp [copy_construct, AssignList, State.empty, swap, Clear, ClearLoop, begin, end_]
      at hloop' ⊢
    simp [hloop']
  · have hl : ds.length = cs.length := by
      have := congrArg List.length hmap
      simpa using this
    have hsz' : tmp.list.size_ = 0 + cs.length := hsz
    show tmp.list.size_ = ds.length
    omega

theorem operator_assign_seg {α : Type} (h : Heap α) (a b : SingleLinkedList)
    {cs ds : List (Nat × α)} (hc : Seg h a.head_next_node cs none)
    (hsa : a.size_ = cs.length) (hd : Seg h b.head_next_node ds none) :
    ∃ s' es, operator_assign a b h = some s' ∧
      Seg s'.heap s'.list.head_next_node es none ∧
      es.map Prod.snd = ds.map Prod.snd ∧ s'.list.size_ = es.length ∧
      ∀ x, x < h.length → (∀ c ∈ cs, c.1 ≠ x) → s'.heap.read x = h.read x := by
  obtain ⟨sb, es, hcopy, hseg, hmap, hsb, hlen, hrd, hge⟩ := copy_construct_seg h b hd
  have hc' : Seg sb.heap a.head_next_node cs none :=
    Seg.of_read_eq hc (fun d hd => hrd d.1 (Seg.addr_lt hc d hd))
  obtain ⟨h2, hcl, _, hfr⟩ := ClearLoop_frame hc'
  refine ⟨⟨sb.list, h2⟩, es, ?_, ?_, hmap, hsb, ?_⟩
  · have hcl' : Clear ⟨a, sb.heap⟩ = some ⟨⟨none, 0⟩, h2⟩ := by
      unfold Clear
      rw [hsa]
      exact hcl
    simp [operator_assign, hcopy, swap, hcl']
  · refine Seg.of_read_eq hseg (fun e he => hfr e.1 (fun c hcm hce => ?_))
    have h1 := Seg.addr_lt hc c hcm
    have h2' := hge e he
    omega
  · intro x hx hnot
    rw [hfr x hnot]
    exact hrd x hx

/-! ## The claims -/

/-- C1 (size invariant).  In every list state that the public operations
produce, walking from `begin()` to `end()` terminates and the number of
advances it takes is `GetSize()`. -/
theorem C1_size_invariant {α : Type} (s : State α) (hr : Reachable s) :
    countNodes s = some (GetSize s) := by
  obtain ⟨cs, hc, hsz⟩ := hr.inv
  rw [countNodes_of_seg s hc]
  exact congrArg some hsz.symm

theorem C1_size_invariant_witness :
    ofInitializerList [] [2, 3] = some sample23 ∧
      countNodes (PushFront sample23 1) = some 3 :=
  ⟨rfl, C1_size_invariant (PushFront sample23 1)
    (Reachable.pushFront sample23 1 (Reachable.ofSequence [] [2, 3] sample23 rfl))⟩

/-- C2 (round-trip construction).  For every free store and every finite
sequence `vs`, the constructor from an initializer list succeeds, and the list
it builds has element sequence `vs` and `GetSize()` equal to `length vs`. -/
theorem C2_construct_roundtrip {α : Type} (h : Heap α) (vs : List α) :
    ∃ s, ofInitializerList h vs = some s ∧ elements s = some vs ∧
      GetSize s = vs.length := by
  obtain ⟨s, cs, hcons, hseg, hmap, hsz⟩ := ofInitializerList_seg h vs
  refine ⟨s, hcons, (elements_eq_some_iff s vs).mpr ⟨cs, hseg, hmap⟩, ?_⟩
  show s.list.size_ = vs.length
  rw [hsz, ← hmap, List.length_map]

/-- C3 (equality).  For two list objects on one free store with element
sequences `la` and `lb` and size fields equal to their lengths, over an element
equality that is reflexive, `operator==` returns, and it returns true exactly
when `la` and `lb` have the same length and their elements are equal pair by
pair in iteration order. -/
theorem C3_operator_eq {α : Type} (eq : α → α → Bool) (h : Heap α) (a b : Ref) (la lb : List α)
    (hrefl : ∀ x, eq x x = true)
    (hid : a.addr = b.addr → a.obj = b.obj)
    (ha : elements ⟨a.obj, h⟩ = some la) (hb : elements ⟨b.obj, h⟩ = some lb)
    (hsa : a.obj.size_ = la.length) (hsb : b.obj.size_ = lb.length) :
    ∃ r, operator_eq eq h a b = some r ∧ (r = true ↔ SameSequence eq la lb) := by
  obtain ⟨cs, hc, rfl⟩ := (elements_eq_some_iff _ la).mp ha
  obtain ⟨ds, hd, rfl⟩ := (elements_eq_some_iff _ lb).mp hb
  simp only at hc hd
  rw [List.length_map] at hsa hsb
  by_cases hadr : a.addr = b.addr
  · refine ⟨true, by simp [operator_eq, hadr], ?_⟩
    have hobj := hid hadr
    rw [hobj] at hc
    have hcd := Seg.unique hc hd
    subst hcd
    simp only [true_iff]
    exact ⟨rfl, fun p hp => by rw [zip_self_mem hp]; exact hrefl _⟩
  · by_cases hsz : a.obj.size_ = b.obj.size_
    · have hlen : cs.length = ds.length := by omega
      have hrun := std_equal_seg eq ⟨a.obj, h⟩ ⟨b.obj, h⟩ hc hd hlen h.length
        (Seg.length_le hc)
      refine ⟨_, by simpa [operator_eq, hadr, GetSize, hsz, begin, end_] using hrun, ?_⟩
      rw [List.all_eq_true]
      simp [SameSequence, hlen]
    · refine ⟨false, by simp [operator_eq, hadr, GetSize, hsz], ?_⟩
      have hlen : cs.length ≠ ds.length := by omega
      simp [SameSequence, hlen]

theorem C3_operator_eq_witness :
    (elements ⟨sampleA.obj, sampleHeap⟩ = some [1, 2, 3] ∧
      elements ⟨sampleC.obj, sampleHeap⟩ = some [1, 2, 2]) ∧
    ∃ r, operator_eq natEq sampleHeap sampleA sampleC = some r ∧
      (r = true ↔ SameSequence natEq [1, 2, 3] [1, 2, 2]) :=
  ⟨⟨by decide, by decide⟩,
    C3_operator_eq natEq sampleHeap sampleA sampleC [1, 2, 3] [1, 2, 2]
      (fun _ => decide_eq_true rfl) (fun h => absurd h (by decide))
      (by decide) (by decide) rfl rfl⟩

/-- C4 (ordering).  For two list objects on one free store with element
sequences `la` and `lb`, `operator<` returns the lexicographic comparison of
`la` and `lb` under the element less-than: decided at the first index where one
element is less than the other, else by which list is the shorter. -/
theorem C4_operator_lt {α : Type} (lt : α → α → Bool) (h : Heap α) (a b : Ref) (la lb : List α)
    (ha : elements ⟨a.obj, h⟩ = some la) (hb : elements ⟨b.obj, h⟩ = some lb) :
    operator_lt lt h a b = some (lexicographicLess lt la lb) := by
  obtain ⟨cs, hc, rfl⟩ := (elements_eq_some_iff _ la).mp ha
  obtain ⟨ds, hd, rfl⟩ := (elements_eq_some_iff _ lb).mp hb
  simp only at hc hd
  exact std_lexicographical_compare_seg lt ⟨a.obj, h⟩ ⟨b.obj, h⟩ hc hd h.length
    (Seg.length_le hc)

theorem C4_operator_lt_witness :
    (elements ⟨sampleD.obj, sampleHeap⟩ = some [1, 2] ∧
      elements ⟨sampleA.obj, sampleHeap⟩ = some [1, 2, 3]) ∧
    operator_lt natLt sampleHeap sampleD sampleA = some true :=
  ⟨⟨by decide, by decide⟩,
    C4_operator_lt natLt sampleHeap sampleD sampleA [1, 2] [1, 2, 3] (by decide) (by decide)⟩

/-- C5 (InsertAfter).  In a list whose element sequence is `l`, take the
position `pos` reached by `k ≤ length l` advances from `before_begin()`
(the sentinel for `k = 0`, the `k`-th element otherwise).  `InsertAfter(pos, v)`
succeeds; the new sequence is the first `k` elements, then `v`, then the rest;
`GetSize()` grows by one; the returned iterator dereferences to `v`, is the
successor of `pos`, and its successor is the old successor of `pos`. -/
theorem C5_InsertAfter {α : Type} (s : State α) (l : List α) (k : Nat) (v : α)
    (hl : elements s = some l) (hk : k ≤ l.length) :
    ∃ pos s' it, advance s k before_begin = some pos ∧
      InsertAfter s pos v = some (s', it) ∧
      elements s' = some (l.take k ++ v :: l.drop k) ∧
      GetSize s' = GetSize s + 1 ∧
      Iterator.deref s' it = some v ∧
      Iterator.inc s' pos = some it ∧
      Iterator.inc s' it = Iterator.inc s pos := by
  obtain ⟨cs, hc, rfl⟩ := (elements_eq_some_iff s l).mp hl
  rw [List.length_map] at hk
  rcases advance_before_begin s hc k hk with ⟨rfl, hadv⟩ | ⟨a, x, pre, suf, hadv, rfl, rfl⟩
  · obtain ⟨s', hins, hseg, hsz, hrn, hhd⟩ := InsertAfter_head s v hc
    refine ⟨NodePtr.head, s', NodePtr.node s.heap.length, hadv, hins, ?_, hsz, ?_, ?_, ?_⟩
    · exact (elements_eq_some_iff s' _).mpr ⟨_, hseg, by simp⟩
    · simp [Iterator.deref, hrn]
    · simp [Iterator.inc, State.next_node, hhd]
    · simp [Iterator.inc, State.next_node, hrn]
  · obtain ⟨s', m, hins, hseg, hsz, hra, hrn, hra'⟩ := InsertAfter_node s v hc
    refine ⟨NodePtr.node a, s', NodePtr.node s.heap.length, hadv, hins, ?_, hsz, ?_, ?_, ?_⟩
    · refine (elements_eq_some_iff s' _).mpr ⟨_, hseg, ?_⟩
      have e1 : List.take (pre.length + 1) (List.map Prod.snd pre ++ x :: List.map Prod.snd suf)
          = List.map Prod.snd pre ++ [x] := by
        rw [List.take_append_eq_append_take]
        simp
      have e2 : List.drop (pre.length + 1) (List.map Prod.snd pre ++ x :: List.map Prod.snd suf)
          = List.map Prod.snd suf := by
        rw [List.drop_append_eq_append_drop]
        simp
      simp only [List.map_append, List.map_cons, e1, e2]
      simp
    · simp [Iterator.deref, hrn]
    · simp [Iterator.inc, State.next_node, hra']
    · simp [Iterator.inc, State.next_node, hrn, hra]

theorem C5_InsertAfter_witness :
    elements sample23 = some [2, 3] ∧
    ∃ pos s' it, advance sample23 1 before_begin = some pos ∧
      InsertAfter sample23 pos 7 = some (s', it) ∧
      elements s' = some [2, 7, 3] ∧
      GetSize s' = 3 ∧
      Iterator.deref s' it = some 7 ∧
      Iterator.inc s' pos = some it ∧
      Iterator.inc s' it = Iterator.inc sample23 pos :=
  ⟨by decide, C5_InsertAfter sample23 [2, 3] 1 7 (by decide) (by decide)⟩

/-- C6 (EraseAfter with a successor).  In a list whose element sequence is `l`
and whose size field is `length l`, take the position `pos` reached by
`k < length l` advances from `before_begin()`, so that the element of index `k`
follows `pos`.  `EraseAfter(pos)` succeeds; the new sequence is `l` without the
element of index `k`; `GetSize()` drops by one; the returned iterator is the
successor of `pos` in the new list, and it is `end()` exactly when the removed
element was the last one. -/
theorem C6_EraseAfter {α : Type} (s : State α) (l : List α) (k : Nat)
    (hl : elements s = some l) (hsz : GetSize s = l.length) (hk : k < l.length) :
    ∃ pos s' it, advance s k before_begin = some pos ∧
      EraseAfter s pos = some (s', it) ∧
      elements s' = some (l.eraseIdx k) ∧
      GetSize s' + 1 = GetSize s ∧
      Iterator.inc s' pos = some it ∧
      (it = end_ ↔ k + 1 = l.length) := by
  obtain ⟨cs, hc, rfl⟩ := (elements_eq_some_iff s l).mp hl
  rw [List.length_map] at hk hsz
  have hne : s.list.size_ ≠ 0 := by
    have : s.list.size_ = cs.length := hsz
    omega
  rcases advance_before_begin s hc k (Nat.le_of_lt hk) with
    ⟨rfl, hadv⟩ | ⟨a, x, pre, suf0, hadv, rfl, rfl⟩
  · cases cs with
    | nil => simp at hk
    | cons c suf =>
      obtain ⟨b, y⟩ := c
      obtain ⟨s', m, her, hseg, hsz', hhd, hsegm⟩ := EraseAfter_head s hc hne
      refine ⟨NodePtr.head, s', NodePtr.ofLink m, hadv, her, ?_, hsz', ?_, ?_⟩
      · exact (elements_eq_some_iff s' _).mpr ⟨_, hseg, by simp⟩
      · simp [Iterator.inc, State.next_node, hhd]
      · have hnil := Seg.nil_iff hsegm
        cases m with
        | none => simp [end_, hnil.mp rfl]
        | some b' =>
          have hsn : suf ≠ [] := fun e => by simpa using hnil.mpr e
          simp [end_, hsn]
  · cases suf0 with
    | nil => simp at hk
    | cons c suf =>
      obtain ⟨b, y⟩ := c
      obtain ⟨s', m, her, hseg, hsz', hra, hsegm⟩ := EraseAfter_node s hc hne
      refine ⟨NodePtr.node a, s', NodePtr.ofLink m, hadv, her, ?_, hsz', ?_, ?_⟩
      · refine (elements_eq_some_iff s' _).mpr ⟨_, hseg, ?_⟩
        have e1 : List.eraseIdx
            (List.map Prod.snd pre ++ x :: y :: List.map Prod.snd suf) (pre.length + 1)
            = List.map Prod.snd pre ++ x :: List.map Prod.snd suf := by
          rw [List.eraseIdx_append_of_length_le (by simp)]
          simp
        simp only [List.map_append, List.map_cons, e1]
      · simp [Iterator.inc, State.next_node, hra]
      · have hnil := Seg.nil_iff hsegm
        cases m with
        | none => simp [end_, hnil.mp rfl]
        | some b' =>
          have hsn : suf ≠ [] := fun e => by simpa using hnil.mpr e
          have hpos : 0 < suf.length := List.length_pos.mpr hsn
          simp only [end_, List.length_map, List.length_append, List.length_cons]
          constructor
          · intro e; cases e
          · intro e; omega

theorem C6_EraseAfter_witness :
    (elements sample23 = some [2, 3] ∧ GetSize sample23 = 2) ∧
    ∃ pos s' it, advance sample23 1 before_begin = some pos ∧
      EraseAfter sample23 pos = some (s', it) ∧
      elements s' = some [2] ∧
      GetSize s' + 1 = 2 ∧
      Iterator.inc s' pos = some it ∧
      (it = end_ ↔ 1 + 1 = 2) :=
  ⟨⟨by decide, rfl⟩, C6_EraseAfter sample23 [2, 3] 1 (by decide) rfl (by decide)⟩

/-- C7 (erase-after leniency).  At a position without a successor (the end
position, or a position whose next link is null, such as the last element or
`before_begin()` of an empty list) `EraseAfter` returns `end()` and leaves the
whole state, hence the element sequence and `GetSize()`, as it was. -/
theorem C7_EraseAfter_no_successor {α : Type} (s : State α) (pos : NodePtr) (hpos : NoSuccessor s pos) :
    ∃ s', EraseAfter s pos = some (s', end_) ∧ elements s' = elements s ∧
      GetSize s' = GetSize s ∧ s' = s :=
  ⟨s, EraseAfter_of_NoSuccessor s pos hpos, rfl, rfl, rfl⟩

theorem C7_EraseAfter_no_successor_witness :
    NoSuccessor sample23 (NodePtr.node 1) ∧
    ∃ s', EraseAfter sample23 (NodePtr.node 1) = some (s', end_) ∧
      elements s' = elements sample23 ∧ GetSize s' = GetSize sample23 ∧ s' = sample23 :=
  ⟨Or.inr rfl, C7_EraseAfter_no_successor sample23 (NodePtr.node 1) (Or.inr rfl)⟩

/-- C8 (insert/erase at the front round trip).  In a list with element
sequence `l`, `InsertAfter(before_begin(), v)` succeeds and gives the sequence
`v` followed by `l`; `EraseAfter(before_begin())` on the result succeeds and
gives back the sequence `l` and the size the list had at the start. -/
theorem C8_insert_erase_front {α : Type} (s : State α) (l : List α) (v : α) (hl : elements s = some l) :
    ∃ s1 it1 s2 it2, InsertAfter s before_begin v = some (s1, it1) ∧
      elements s1 = some (v :: l) ∧ GetSize s1 = GetSize s + 1 ∧
      EraseAfter s1 before_begin = some (s2, it2) ∧
      elements s2 = some l ∧ GetSize s2 = GetSize s := by
  obtain ⟨cs, hc, rfl⟩ := (elements_eq_some_iff s l).mp hl
  obtain ⟨s1, hins, hseg1, hsz1, _, _⟩ := InsertAfter_head s v hc
  have hne : s1.list.size_ ≠ 0 := by omega
  obtain ⟨s2, m, her, hseg2, hsz2, _, _⟩ := EraseAfter_head s1 hseg1 hne
  refine ⟨s1, _, s2, _, hins, ?_, hsz1, her, ?_, ?_⟩
  · exact (elements_eq_some_iff s1 _).mpr ⟨_, hseg1, by simp⟩
  · exact (elements_eq_some_iff s2 _).mpr ⟨_, hseg2, rfl⟩
  · show s2.list.size_ = s.list.size_
    omega

theorem C8_insert_erase_front_witness :
    elements sample23 = some [2, 3] ∧
    ∃ s1 it1 s2 it2, InsertAfter sample23 before_begin 1 = some (s1, it1) ∧
      elements s1 = some [1, 2, 3] ∧ GetSize s1 = 3 ∧
      EraseAfter s1 before_begin = some (s2, it2) ∧
      elements s2 = some [2, 3] ∧ GetSize s2 = 2 :=
  ⟨by decide, C8_insert_erase_front sample23 [2, 3] 1 (by decide)⟩

/-- C9 (PushFront).  In a list with element sequence `l`, after `PushFront(v)`
the sequence is `v` followed by `l`, `begin()` dereferences to `v`, and
`GetSize()` has grown by one. -/
theorem C9_PushFront {α : Type} (s : State α) (l : List α) (v : α) (hl : elements s = some l) :
    elements (PushFront s v) = some (v :: l) ∧
      Iterator.deref (PushFront s v) (begin (PushFront s v)) = some v ∧
      GetSize (PushFront s v) = GetSize s + 1 := by
  obtain ⟨cs, hc, rfl⟩ := (elements_eq_some_iff s l).mp hl
  refine ⟨?_, ?_, rfl⟩
  · exact (elements_eq_some_iff _ _).mpr ⟨_, PushFront_seg s v hc, by simp⟩
  · have hr := Heap.read_new_self s.heap v s.list.head_next_node
    show Iterator.deref (PushFront s v) (NodePtr.node s.heap.length) = some v
    simp [Iterator.deref, PushFront, hr]

theorem C9_PushFront_witness :
    elements sample23 = some [2, 3] ∧
    elements (PushFront sample23 1) = some [1, 2, 3] ∧
      Iterator.deref (PushFront sample23 1) (begin (PushFront sample23 1)) = some 1 ∧
      GetSize (PushFront sample23 1) = 3 :=
  ⟨by decide, C9_PushFront sample23 [2, 3] 1 (by decide)⟩

/-- C10 (PopFront).  In a list with element sequence `l` and size field
`length l`: when `l` is empty `PopFront()` returns the state unchanged; when
`l` is `x` followed by `rest`, `PopFront()` succeeds, leaves the sequence
`rest`, and `GetSize()` has dropped by one. -/
theorem C10_PopFront {α : Type} (s : State α) (l : List α)
    (hl : elements s = some l) (hsz : GetSize s = l.length) :
    match l with
    | [] => PopFront s = some s
    | _ :: rest => ∃ s', PopFront s = some s' ∧ elements s' = some rest ∧
        GetSize s' + 1 = GetSize s := by
  obtain ⟨cs, hc, rfl⟩ := (elements_eq_some_iff s l).mp hl
  cases cs with
  | nil =>
    have h0 : s.list.size_ = 0 := hsz
    simp [PopFront, IsEmpty, h0]
  | cons c cs =>
    have hne : s.list.size_ ≠ 0 := by
      have : s.list.size_ = (c :: cs).length := by simpa using hsz
      simp at this
      omega
    obtain ⟨s', hpop, hseg, hsz'⟩ := PopFront_seg s hc hne
    exact ⟨s', hpop, (elements_eq_some_iff s' _).mpr ⟨_, hseg, rfl⟩, hsz'⟩

theorem C10_PopFront_witness :
    (elements sample23 = some [2, 3] ∧ GetSize sample23 = 2) ∧
    ∃ s', PopFront sample23 = some s' ∧ elements s' = some [3] ∧ GetSize s' + 1 = 2 :=
  ⟨⟨by decide, rfl⟩, C10_PopFront sample23 [2, 3] (by decide) rfl⟩

/-- C11 (Clear empties fully).  On a list that satisfies the size invariant
(the walk from `begin()` to `end()` takes `GetSize()` advances) `Clear()`
returns, and afterwards `IsEmpty()` is true, `GetSize()` is 0, the next link of
the sentinel is null, and `begin()` equals `end()`. -/
theorem C11_Clear_empties {α : Type} (s : State α)
    (hinv : countNodes s = some (GetSize s)) :
    ∃ s', Clear s = some s' ∧ IsEmpty s' = true ∧ GetSize s' = 0 ∧
      s'.list.head_next_node = none ∧ begin s' = end_ := by
  obtain ⟨cs, hc, hsz⟩ := Inv_of_countNodes s hinv
  obtain ⟨h', hcl, _⟩ := Clear_seg s hc hsz
  exact ⟨_, hcl, rfl, rfl, rfl, rfl⟩

theorem C11_Clear_empties_witness :
    countNodes sample23 = some (GetSize sample23) ∧
    ∃ s', Clear sample23 = some s' ∧ IsEmpty s' = true ∧ GetSize s' = 0 ∧
      s'.list.head_next_node = none ∧ begin s' = end_ :=
  ⟨by decide, C11_Clear_empties sample23 (by decide)⟩

/-- C12 (swap exchange).  After the member `swap`, and after the free function
`swap`, the first list object is the former second one and the second is the
former first one, so on the unchanged free store each has the other's former
element sequence and size. -/
theorem C12_swap_exchange {α : Type} (a b : SingleLinkedList) (h : Heap α) :
    ((swap a b).1 = b ∧ (swap a b).2 = a) ∧
    (elements ⟨(swap a b).1, h⟩ = elements ⟨b, h⟩ ∧
      GetSize (State.mk (swap a b).1 h) = GetSize (State.mk b h) ∧
      elements ⟨(swap a b).2, h⟩ = elements ⟨a, h⟩ ∧
      GetSize (State.mk (swap a b).2 h) = GetSize (State.mk a h)) ∧
    free_swap a b = swap a b :=
  ⟨⟨rfl, rfl⟩, ⟨rfl, rfl, rfl, rfl⟩, rfl⟩

/-- C13 (swap is an involution).  Two swaps in a row give back both list
objects, hence both element sequences and sizes. -/
theorem C13_swap_involution {α : Type} (a b : SingleLinkedList) (h : Heap α) :
    swap (swap a b).1 (swap a b).2 = (a, b) ∧
    free_swap (free_swap a b).1 (free_swap a b).2 = (a, b) ∧
    elements ⟨(swap (swap a b).1 (swap a b).2).1, h⟩ = elements ⟨a, h⟩ ∧
    GetSize (State.mk (swap (swap a b).1 (swap a b).2).1 h) = GetSize (State.mk a h) ∧
    elements ⟨(swap (swap a b).1 (swap a b).2).2, h⟩ = elements ⟨b, h⟩ ∧
    GetSize (State.mk (swap (swap a b).1 (swap a b).2).2 h) = GetSize (State.mk b h) :=
  ⟨rfl, rfl, rfl, rfl, rfl, rfl⟩

/-- C14 (copy construction and independence).  For a list `a` with element
sequence `l` and size field `length l`, the copy constructor returns a list `b`
with element sequence `l` and `GetSize()` equal to `length l`; `a` still has
the sequence `l` on the free store after the copy.  After any finite run of
mutations (`PushFront`, `PopFront`, `InsertAfter`, `EraseAfter`, `Clear`) of
`a` and `b`, both lists still iterate, and one more mutation of either list
leaves the element sequence and the size of the other unchanged. -/
theorem C14_copy_independent {α : Type} (h : Heap α) (a : SingleLinkedList) (l : List α)
    (hl : elements ⟨a, h⟩ = some l) (hsz : a.size_ = l.length) :
    ∃ sb, copy_construct h a = some sb ∧
      elements sb = some l ∧ GetSize sb = l.length ∧
      elements ⟨a, sb.heap⟩ = some l ∧
      ∀ t, Evolves ⟨a, sb.list, sb.heap⟩ t →
        (∃ la lb, elements ⟨t.a, t.heap⟩ = some la ∧ elements ⟨t.b, t.heap⟩ = some lb) ∧
        (∀ a' h', Mutates ⟨t.a, t.heap⟩ ⟨a', h'⟩ →
          elements ⟨t.b, h'⟩ = elements ⟨t.b, t.heap⟩ ∧
          GetSize (State.mk t.b h') = GetSize (State.mk t.b t.heap)) ∧
        (∀ b' h', Mutates ⟨t.b, t.heap⟩ ⟨b', h'⟩ →
          elements ⟨t.a, h'⟩ = elements ⟨t.a, t.heap⟩ ∧
          GetSize (State.mk t.a h') = GetSize (State.mk t.a t.heap)) := by
  obtain ⟨cs, hc, rfl⟩ := (elements_eq_some_iff _ l).mp hl
  simp only at hc
  rw [List.length_map] at hsz
  obtain ⟨sb, ds, hcopy, hseg, hmap, hsb, hlen, hrd, hge⟩ := copy_construct_seg h a hc
  have hc' : Seg sb.heap a.head_next_node cs none :=
    Seg.of_read_eq hc (fun d hd => hrd d.1 (Seg.addr_lt hc d hd))
  have hind : Independent a sb.list sb.heap := by
    refine ⟨cs, ds, hc', hsz, hseg, hsb, ?_⟩
    intro c hcm d hdm e
    have h1 := Seg.addr_lt hc c hcm
    have h2 := hge d hdm
    omega
  refine ⟨sb, hcopy, (elements_eq_some_iff sb _).mpr ⟨ds, hseg, hmap⟩, ?_,
    (elements_eq_some_iff _ _).mpr ⟨cs, hc', rfl⟩, ?_⟩
  · show sb.list.size_ = (cs.map Prod.snd).length
    rw [hsb, ← hmap, List.length_map]
  · intro t ht
    have hi : Independent t.a t.b t.heap := Independent.evolves ht hind
    refine ⟨hi.has_elements, ?_, ?_⟩
    · intro a' h' hm
      exact ⟨(hi.mutate_left hm).2, rfl⟩
    · intro b' h' hm
      exact ⟨(hi.symm.mutate_left hm).2, rfl⟩

theorem C14_copy_independent_witness :
    (elements ⟨sampleA.obj, sampleHeap⟩ = some [1, 2, 3] ∧ sampleA.obj.size_ = 3) ∧
    ∃ sb, copy_construct sampleHeap sampleA.obj = some sb ∧
      elements sb = some [1, 2, 3] ∧ GetSize sb = 3 ∧
      elements ⟨sampleA.obj, sb.heap⟩ = some [1, 2, 3] ∧
      ∀ t, Evolves ⟨sampleA.obj, sb.list, sb.heap⟩ t →
        (∃ la lb, elements ⟨t.a, t.heap⟩ = some la ∧ elements ⟨t.b, t.heap⟩ = some lb) ∧
        (∀ a' h', Mutates ⟨t.a, t.heap⟩ ⟨a', h'⟩ →
          elements ⟨t.b, h'⟩ = elements ⟨t.b, t.heap⟩ ∧
          GetSize (State.mk t.b h') = GetSize (State.mk t.b t.heap)) ∧
        (∀ b' h', Mutates ⟨t.b, t.heap⟩ ⟨b', h'⟩ →
          elements ⟨t.a, h'⟩ = elements ⟨t.a, t.heap⟩ ∧
          GetSize (State.mk t.a h') = GetSize (State.mk t.a t.heap)) :=
  ⟨⟨by decide, rfl⟩, C14_copy_independent sampleHeap sampleA.obj [1, 2, 3] (by decide) rfl⟩

/-- C15 (copy assignment).  Let `a` and `b` be lists with element sequences
`la` and `lb` and size fields equal to their lengths, that share no node.
`a = b` returns; afterwards `a` has the element sequence `lb` and `GetSize()`
equal to `length lb`, and `b` still has the sequence `lb` and its size.  The
self-assignment `a = a` returns and leaves `a` with the sequence `la` and
`GetSize()` equal to `length la`. -/
theorem C15_copy_assignment {α : Type} (h : Heap α) (a b : SingleLinkedList) (la lb : List α)
    (ha : elements ⟨a, h⟩ = some la) (hsa : a.size_ = la.length)
    (hb : elements ⟨b, h⟩ = some lb) (hsb : b.size_ = lb.length)
    (hdisj : ∀ i, i < a.size_ → ∀ j, j < b.size_ →
      advance ⟨a, h⟩ i (begin (State.mk a h)) ≠ advance ⟨b, h⟩ j (begin (State.mk b h))) :
    (∃ s', operator_assign a b h = some s' ∧
      elements s' = some lb ∧ GetSize s' = lb.length ∧
      elements ⟨b, s'.heap⟩ = some lb ∧ GetSize (State.mk b s'.heap) = lb.length) ∧
    (∃ s', operator_assign a a h = some s' ∧
      elements s' = some la ∧ GetSize s' = la.length) := by
  obtain ⟨cs, hc, rfl⟩ := (elements_eq_some_iff _ la).mp ha
  obtain ⟨ds, hd, rfl⟩ := (elements_eq_some_iff _ lb).mp hb
  simp only at hc hd
  rw [List.length_map] at hsa hsb
  constructor
  · obtain ⟨s', es, hop, hseg, hmap, hsz, hfr⟩ := operator_assign_seg h a b hc hsa hd
    have hne : ∀ c ∈ cs, ∀ d ∈ ds, c.1 ≠ d.1 := by
      intro c hcm d hdm e
      obtain ⟨i, hi, hadv1, _, _⟩ := Seg.position_of_mem ⟨a, h⟩ hc hcm
      obtain ⟨j, hj, hadv2, _, _⟩ := Seg.position_of_mem ⟨b, h⟩ hd hdm
      refine hdisj i (by omega) j (by omega) ?_
      rw [hadv1, hadv2, e]
    have hd' : Seg s'.heap b.head_next_node ds none :=
      Seg.of_read_eq hd (fun d hdm =>
        hfr d.1 (Seg.addr_lt hd d hdm) (fun c hcm => hne c hcm d hdm))
    refine ⟨s', hop, (elements_eq_some_iff s' _).mpr ⟨es, hseg, hmap⟩, ?_,
      (elements_eq_some_iff _ _).mpr ⟨ds, hd', rfl⟩, ?_⟩
    · show s'.list.size_ = (ds.map Prod.snd).length
      rw [hsz, ← hmap, List.length_map]
    · show b.size_ = (ds.map Prod.snd).length
      rw [hsb, List.length_map]
  · obtain ⟨s', es, hop, hseg, hmap, hsz, _⟩ := operator_assign_seg h a a hc hsa hc
    refine ⟨s', hop, (elements_eq_some_iff s' _).mpr ⟨es, hseg, hmap⟩, ?_⟩
    show s'.list.size_ = (cs.map Prod.snd).length
    rw [hsz, ← hmap, List.length_map]

theorem C15_copy_assignment_witness :
    (elements ⟨sampleD.obj, sampleHeap⟩ = some [1, 2] ∧
      elements ⟨sampleC.obj, sampleHeap⟩ = some [1, 2, 2]) ∧
    (∃ s', operator_assign sampleD.obj sampleC.obj sampleHeap = some s' ∧
      elements s' = some [1, 2, 2] ∧ GetSize s' = 3 ∧
      elements ⟨sampleC.obj, s'.heap⟩ = some [1, 2, 2] ∧
      GetSize (State.mk sampleC.obj s'.heap) = 3) ∧
    (∃ s', operator_assign sampleD.obj sampleD.obj sampleHeap = some s' ∧
      elements s' = some [1, 2] ∧ GetSize s' = 2) :=
  ⟨⟨by decide, by decide⟩,
    C15_copy_assignment sampleHeap sampleD.obj sampleC.obj [1, 2] [1, 2, 2]
      (by decide) rfl (by decide) rfl (by decide)⟩

/-- C16, as stated, fails: swapping the list `[1, 2]` (the source) with the
list `[1, 2, 3]` leaves the source with three elements, not empty. -/
theorem C16_counterexample :
    ¬ (GetSize (State.mk (swap sampleD.obj sampleA.obj).1 sampleHeap) = 0 ∧
      begin (State.mk (swap sampleD.obj sampleA.obj).1 sampleHeap) = end_) := by
  decide

/-- C16 (amended).  After `swap` the source list has the head link and size
that the other list had before, so the source is empty (`GetSize() == 0` and
`begin() == end()`) exactly when the other list was empty before the swap. -/
theorem C16_swap_source {α : Type} (source other : SingleLinkedList) (h : Heap α) :
    (swap source other).1 = other ∧
    ((GetSize (State.mk (swap source other).1 h) = 0 ∧
        begin (State.mk (swap source other).1 h) = end_) ↔
      (GetSize (State.mk other h) = 0 ∧ begin (State.mk other h) = end_)) :=
  ⟨rfl, Iff.rfl⟩

/-- C17 (the sentinel unifies front insertion).  `InsertAfter(before_begin(), v)`
returns, and the state it leaves is the state that `PushFront(v)` leaves: the
same list object and free store, hence the same element sequence and size. -/
theorem C17_PushFront_eq_InsertAfter {α : Type} (s : State α) (v : α) :
    ∃ s' it, InsertAfter s before_begin v = some (s', it) ∧
      s' = PushFront s v ∧
      elements s' = elements (PushFront s v) ∧
      GetSize s' = GetSize (PushFront s v) :=
  ⟨PushFront s v, _, InsertAfter_head_eq s v, rfl, rfl, rfl⟩

/-- C18 (equality stays inside the right-hand list).  For two distinct list
objects that satisfy the size invariant, `operator==` returns, so no assertion
of `operator*` or `operator++` fails; it calls `std::equal` only when the sizes
agree; and every position at which `std::equal` applies `*` or `++` to its
iterator into the right-hand list is an element of that list: it is reached by
fewer than `GetSize()` advances from `begin()`, is not null, and `*` and `++`
succeed there. -/
theorem C18_operator_eq_in_bounds {α : Type} (eq : α → α → Bool) (h : Heap α) (a b : Ref)
    (hne : a.addr ≠ b.addr)
    (ha : countNodes ⟨a.obj, h⟩ = some (GetSize (State.mk a.obj h)))
    (hb : countNodes ⟨b.obj, h⟩ = some (GetSize (State.mk b.obj h))) :
    ∃ r log, operator_eq_log eq h a b = some (r, log) ∧
      operator_eq eq h a b = some r ∧
      (GetSize (State.mk a.obj h) ≠ GetSize (State.mk b.obj h) → log = []) ∧
      ∀ p ∈ log, ∃ k, k < GetSize (State.mk b.obj h) ∧
        advance ⟨b.obj, h⟩ k (begin (State.mk b.obj h)) = some p ∧
        p ≠ NodePtr.null ∧
        (Iterator.deref ⟨b.obj, h⟩ p).isSome = true ∧
        (Iterator.inc ⟨b.obj, h⟩ p).isSome = true := by
  obtain ⟨cs, hc, hsa⟩ := Inv_of_countNodes _ ha
  obtain ⟨ds, hd, hsb⟩ := Inv_of_countNodes _ hb
  simp only at hc hd hsa hsb
  have hfst := operator_eq_log_fst eq h a b
  by_cases hsz : GetSize (State.mk a.obj h) = GetSize (State.mk b.obj h)
  · have hlen : cs.length = ds.length := by
      have : a.obj.size_ = b.obj.size_ := hsz
      omega
    obtain ⟨r, log, hrun, hlog⟩ := std_equal_log_seg eq ⟨a.obj, h⟩ ⟨b.obj, h⟩ hc hd hlen
      h.length (Seg.length_le hc)
    have hop : operator_eq_log eq h a b = some (r, log) := by
      simpa [operator_eq_log, hne, hsz, begin, end_] using hrun
    refine ⟨r, log, hop, ?_, fun hcon => absurd hsz hcon, ?_⟩
    · rw [← hfst, hop]; rfl
    · intro p hp
      obtain ⟨d, hdm, rfl⟩ := hlog p hp
      obtain ⟨k, hk, hadv, hder, hinc⟩ := Seg.position_of_mem ⟨b.obj, h⟩ hd hdm
      refine ⟨k, ?_, hadv, by simp, hder, hinc⟩
      show k < b.obj.size_
      omega
  · have hop : operator_eq_log eq h a b = some (false, []) := by
      simp [operator_eq_log, hne, hsz]
    refine ⟨false, [], hop, ?_, fun _ => rfl, by simp⟩
    rw [← hfst, hop]; rfl

theorem C18_operator_eq_in_bounds_witness :
    (sampleA.addr ≠ sampleC.addr ∧
      countNodes ⟨sampleA.obj, sampleHeap⟩ = some 3 ∧
      countNodes ⟨sampleC.obj, sampleHeap⟩ = some 3) ∧
    ∃ r log, operator_eq_log natEq sampleHeap sampleA sampleC = some (r, log) ∧
      operator_eq natEq sampleHeap sampleA sampleC = some r ∧
      (GetSize (State.mk sampleA.obj sampleHeap) ≠ GetSize (State.mk sampleC.obj sampleHeap) →
        log = []) ∧
      ∀ p ∈ log, ∃ k, k < GetSize (State.mk sampleC.obj sampleHeap) ∧
        advance ⟨sampleC.obj, sampleHeap⟩ k (begin (State.mk sampleC.obj sampleHeap)) = some p ∧
        p ≠ NodePtr.null ∧
        (Iterator.deref ⟨sampleC.obj, sampleHeap⟩ p).isSome = true ∧
        (Iterator.inc ⟨sampleC.obj, sampleHeap⟩ p).isSome = true :=
  ⟨⟨by decide, by decide, by decide⟩,
    C18_operator_eq_in_bounds natEq sampleHeap sampleA sampleC (by decide) (by decide)
      (by decide)⟩

/-- C19 (Clear terminates and is null-safe).  On a list that satisfies the size
invariant, with `n = GetSize()`: `Clear()` returns the state after exactly `n`
turns of its loop, where the loop test fails; after every `k ≤ n` turns the
size field is `n - k` and the head link is null exactly when the size field is
0; and before each turn `k < n` the test passes and the head link points to a
live node. -/
theorem C19_Clear_terminates {α : Type} (s : State α)
    (hinv : countNodes s = some (GetSize s)) :
    (∃ final, Clear s = some final ∧ ClearTurns (GetSize s) s = some final ∧
      IsEmpty final = true ∧ final.list.head_next_node = none) ∧
    ∀ k, k ≤ GetSize s → ∃ sk, ClearTurns k s = some sk ∧
      GetSize sk + k = GetSize s ∧
      (sk.list.head_next_node = none ↔ GetSize sk = 0) ∧
      (k < GetSize s → IsEmpty sk = false ∧
        ∃ a nd, sk.list.head_next_node = some a ∧ sk.heap.read a = some nd) := by
  obtain ⟨cs, hc, hsz⟩ := Inv_of_countNodes s hinv
  have hsz' : GetSize s = cs.length := hsz
  have hturns : ∀ k, k ≤ GetSize s → ∃ sk, ClearTurns k s = some sk ∧
      GetSize sk + k = GetSize s ∧
      (sk.list.head_next_node = none ↔ GetSize sk = 0) ∧
      (k < GetSize s → IsEmpty sk = false ∧
        ∃ a nd, sk.list.head_next_node = some a ∧ sk.heap.read a = some nd) := by
    intro k hk
    rw [hsz'] at hk
    obtain ⟨sk, hturn, hseg, hsize⟩ := ClearTurns_seg k s cs hc hsz hk
    have hsk : GetSize sk + k = cs.length := hsize
    have hdl : (cs.drop k).length = cs.length - k := List.length_drop k cs
    refine ⟨sk, hturn, by rw [hsz']; exact hsize, ?_, ?_⟩
    · rw [Seg.nil_iff hseg, ← List.length_eq_zero, hdl]
      omega
    · intro hlt
      rw [hsz'] at hlt
      have hne : GetSize sk ≠ 0 := by omega
      refine ⟨by simpa [IsEmpty, GetSize] using hne, ?_⟩
      have hdrop : cs.drop k = cs[k] :: cs.drop (k + 1) := List.drop_eq_getElem_cons hlt
      rw [hdrop] at hseg
      obtain ⟨hp, nx, hr, _⟩ := hseg
      exact ⟨_, _, hp, hr⟩
  refine ⟨?_, hturns⟩
  obtain ⟨sk, hturn, hsize, hnil, _⟩ := hturns (GetSize s) (Nat.le_refl _)
  have h0 : GetSize sk = 0 := by omega
  refine ⟨sk, ?_, hturn, by simpa [IsEmpty, GetSize] using h0, hnil.mpr h0⟩
  rw [Clear_eq_ClearTurns]
  exact hturn

theorem C19_Clear_terminates_witness :
    countNodes sample23 = some (GetSize sample23) ∧
    ∃ final, Clear sample23 = some final ∧ ClearTurns 2 sample23 = some final ∧
      IsEmpty final = true ∧ final.list.head_next_node = none :=
  ⟨by decide, (C19_Clear_terminates sample23 (by decide)).1⟩

/-- C20 (derived comparisons).  Over an element type whose less-than is a
strict total order and whose equality is equality, for two list objects that
satisfy the size invariant all five comparisons return, `a <= b` holds exactly
when `a < b` or `a == b`, `a >= b` holds exactly when `a > b` or `a == b`, and
exactly one of `a < b`, `a == b`, `a > b` holds. -/
theorem C20_derived_comparisons {α : Type} (lt eq : α → α → Bool) (h : Heap α) (a b : Ref)
    (hirr : ∀ x, lt x x = false)
    (htrans : ∀ x y z, lt x y = true → lt y z = true → lt x z = true)
    (htot : ∀ x y, lt x y = true ∨ x = y ∨ lt y x = true)
    (heq : ∀ x y, eq x y = true ↔ x = y)
    (hid : a.addr = b.addr → a.obj = b.obj)
    (ha : countNodes ⟨a.obj, h⟩ = some (GetSize (State.mk a.obj h)))
    (hb : countNodes ⟨b.obj, h⟩ = some (GetSize (State.mk b.obj h))) :
    ∃ blt beq bgt ble bge,
      operator_lt lt h a b = some blt ∧ operator_eq eq h a b = some beq ∧
      operator_gt lt h a b = some bgt ∧ operator_le lt h a b = some ble ∧
      operator_ge lt h a b = some bge ∧
      (ble = true ↔ (blt = true ∨ beq = true)) ∧
      (bge = true ↔ (bgt = true ∨ beq = true)) ∧
      (blt = true ∨ beq = true ∨ bgt = true) ∧
      ¬ (blt = true ∧ beq = true) ∧ ¬ (blt = true ∧ bgt = true) ∧
      ¬ (beq = true ∧ bgt = true) := by
  obtain ⟨cs, hc, hsa⟩ := Inv_of_countNodes _ ha
  obtain ⟨ds, hd, hsb⟩ := Inv_of_countNodes _ hb
  simp only at hc hd hsa hsb
  have hlt := std_lexicographical_compare_seg lt ⟨a.obj, h⟩ ⟨b.obj, h⟩ hc hd h.length
    (Seg.length_le hc)
  have hgt := std_lexicographical_compare_seg lt ⟨b.obj, h⟩ ⟨a.obj, h⟩ hd hc h.length
    (Seg.length_le hd)
  obtain ⟨beq, hbeq, hiff⟩ := operator_eq_of_seg eq h a b
    (fun x => (heq x x).mpr rfl) hid hc hd hsa hsb
  rw [SameSequence_iff_eq eq heq] at hiff
  obtain ⟨t1, t2, t3, t4⟩ := lexicographicLess_trichotomy lt hirr htrans htot
    (cs.map Prod.snd) (ds.map Prod.snd)
  have hlt' : operator_lt lt h a b
      = some (lexicographicLess lt (cs.map Prod.snd) (ds.map Prod.snd)) := hlt
  have hgt' : operator_lt lt h b a
      = some (lexicographicLess lt (ds.map Prod.snd) (cs.map Prod.snd)) := hgt
  refine ⟨lexicographicLess lt (cs.map Prod.snd) (ds.map Prod.snd), beq,
    lexicographicLess lt (ds.map Prod.snd) (cs.map Prod.snd),
    !lexicographicLess lt (ds.map Prod.snd) (cs.map Prod.snd),
    !lexicographicLess lt (cs.map Prod.snd) (ds.map Prod.snd),
    hlt', hbeq, hgt', ?_, ?_, ?_, ?_, ?_, ?_, ?_, ?_⟩
  · show operator_le lt h a b
      = some (!lexicographicLess lt (ds.map Prod.snd) (cs.map Prod.snd))
    simp [operator_le, operator_gt, hgt']
  · show operator_ge lt h a b
      = some (!lexicographicLess lt (cs.map Prod.snd) (ds.map Prod.snd))
    simp [operator_ge, hlt']
  · rw [hiff]
    cases hg : lexicographicLess lt (ds.map Prod.snd) (cs.map Prod.snd)
    · simp only [Bool.not_false, true_iff]
      rcases t1 with t | t | t
      · exact Or.inl t
      · exact Or.inr t
      · rw [hg] at t; cases t
    · simp only [Bool.not_true, Bool.false_eq_true, false_iff]
      rintro (t | t)
      · exact t3 ⟨t, hg⟩
      · exact t4 ⟨t, hg⟩
  · rw [hiff]
    cases hl : lexicographicLess lt (cs.map Prod.snd) (ds.map Prod.snd)
    · simp only [Bool.not_false, true_iff]
      rcases t1 with t | t | t
      · rw [hl] at t; cases t
      · exact Or.inr t
      · exact Or.inl t
    · simp only [Bool.not_true, Bool.false_eq_true, false_iff]
      rintro (t | t)
      · exact t3 ⟨hl, t⟩
      · exact t2 ⟨hl, t⟩
  · rw [hiff]; exact t1
  · rw [hiff]; exact t2
  · exact t3
  · rw [hiff]; exact t4

theorem C20_derived_comparisons_witness :
    (countNodes ⟨sampleD.obj, sampleHeap⟩ = some 2 ∧
      countNodes ⟨sampleA.obj, sampleHeap⟩ = some 3) ∧
    ∃ blt beq bgt ble bge,
      operator_lt natLt sampleHeap sampleD sampleA = some blt ∧
      operator_eq natEq sampleHeap sampleD sampleA = some beq ∧
      operator_gt natLt sampleHeap sampleD sampleA = some bgt ∧
      operator_le natLt sampleHeap sampleD sampleA = some ble ∧
      operator_ge natLt sampleHeap sampleD sampleA = some bge ∧
      (ble = true ↔ (blt = true ∨ beq = true)) ∧
      (bge = true ↔ (bgt = true ∨ beq = true)) ∧
      (blt = true ∨ beq = true ∨ bgt = true) ∧
      ¬ (blt = true ∧ beq = true) ∧ ¬ (blt = true ∧ bgt = true) ∧
      ¬ (beq = true ∧ bgt = true) :=
  ⟨⟨by decide, by decide⟩,
    C20_derived_comparisons natLt natEq sampleHeap sampleD sampleA
      (fun x => by simp [natLt])
      (fun x y z h1 h2 => by simp [natLt] at h1 h2 ⊢; omega)
      (fun x y => by simp [natLt]; omega)
      (fun x y => by simp [natEq])
      (fun e => absurd e (by decide)) (by decide) (by decide)⟩

end SingleLinkedList
